import Mathlib

/-!
Verification development for two cores of the saitoha/vte tree:
the scrollback ring (src/ring.c) and the SIXEL decoder (src/sixel.cc).

Rows stored in the ring are opaque pointers in C; they are modelled as
natural numbers, and a physical slot of the backing array holds an
`Option ℕ` (`none` models a NULL slot).  Absolute row indices are
natural numbers (the C code uses non-negative `long` values throughout
the live window).
-/

/-! ## Ring buffer: data model (src/ring.c together with its header) -/

structure VteRing where
  max : ℕ
  delta : ℕ
  length : ℕ
  array : List (Option ℕ)
  cached_item : ℤ
  cached_data : Option ℕ
deriving DecidableEq, Repr

/-- Modelled from the spec: ring.h is not under src/.  `set_cache(p, row)`
stores the one-entry memo; `p = −1` invalidates it. -/
def _vte_ring_set_cache (ring : VteRing) (position : ℤ) (data : Option ℕ) : VteRing :=
  { ring with cached_item := position, cached_data := data }

/-- Modelled from the spec: ring.h is not under src/.  `next()` is
`delta + length`, the next absolute index to append. -/
def _vte_ring_next (ring : VteRing) : ℕ :=
  ring.delta + ring.length

/-- Modelled from the spec: ring.h is not under src/.  `contains(p)` is
`delta ≤ p < delta + length`. -/
def _vte_ring_contains (ring : VteRing) (position : ℕ) : Prop :=
  ring.delta ≤ position ∧ position < ring.delta + ring.length

instance (ring : VteRing) (position : ℕ) : Decidable (_vte_ring_contains ring position) := by
  unfold _vte_ring_contains; infer_instance

/-- Modelled from the spec: ring.h is not under src/.  `index(p)` returns
`array[p mod max]`; if `p == cached_item` it returns `cached_data`
directly. -/
def _vte_ring_index (ring : VteRing) (position : ℕ) : Option ℕ :=
  if (position : ℤ) = ring.cached_item then ring.cached_data
  else ring.array.getD (position % ring.max) none

/-- `_vte_ring_new`: `max = MAX(max_elements, 2)`, zeroed slots, empty
window, cache invalidated (`cached_item = -1`). -/
def _vte_ring_new (max_elements : ℕ) : VteRing :=
  { max := Nat.max max_elements 2
    delta := 0
    length := 0
    array := List.replicate (Nat.max max_elements 2) none
    cached_item := -1
    cached_data := none }

/-- `_vte_ring_new_with_delta`: a fresh ring with a caller-chosen delta. -/
def _vte_ring_new_with_delta (max_elements : ℕ) (delta : ℕ) : VteRing :=
  { _vte_ring_new max_elements with delta := delta }

/-- The descending shift loop of `_vte_ring_insert`:
`for (i = point; i > position; i--) array[i % max] = array[(i - 1) % max];`
`count` is `point - position`; the recursion performs the iterations in
the same (descending) order as the C loop. -/
def ringShiftUp (arr : List (Option ℕ)) (m position : ℕ) : ℕ → List (Option ℕ)
  | 0 => arr
  | k + 1 =>
      ringShiftUp (arr.set ((position + k + 1) % m) (arr.getD ((position + k) % m) none))
        m position k

/-- `_vte_ring_insert`.  The two `g_return_if_fail` guards and the NULL
check make the call a no-op when violated.  Freeing a row is a memory
action with no observable effect on the modelled state.  In the
non-append branch `length ≥ 1` holds (the guards force
`delta ≤ position < delta + length`), so the C `while (point < 0)` fixup
loop is dead and `point` is the plain natural `delta + length - 1`
(resp. `delta + length` when not full). -/
def _vte_ring_insert (ring : VteRing) (position : ℕ) (data : Option ℕ) : VteRing :=
  if position < ring.delta ∨ ring.delta + ring.length < position ∨ data.isNone then ring
  else if position = ring.delta + ring.length then
    let arr := ring.array.set (position % ring.max) data
    if ring.length = ring.max then
      let ring2 := { ring with array := arr, delta := ring.delta + 1 }
      if ring.cached_item < ((ring.delta + 1 : ℕ) : ℤ) then
        _vte_ring_set_cache ring2 (-1) none
      else ring2
    else
      { ring with array := arr, length := ring.length + 1 }
  else
    let ring1 :=
      if (position : ℤ) ≤ ring.cached_item then _vte_ring_set_cache ring (-1) none else ring
    let point :=
      if ring.length = ring.max then ring.delta + ring.length - 1 else ring.delta + ring.length
    let arr := ringShiftUp ring1.array ring.max position (point - position)
    { ring1 with
        array := arr.set (position % ring.max) data,
        length := min (ring.length + 1) ring.max }

/-- The ascending shift loop of `_vte_ring_remove`:
`for (i = position; i < delta + length - 1; i++) array[i % max] = array[(i + 1) % max];` -/
def ringShiftDown (arr : List (Option ℕ)) (m position : ℕ) : ℕ → List (Option ℕ)
  | 0 => arr
  | k + 1 =>
      ringShiftDown (arr.set (position % m) (arr.getD ((position + 1) % m) none))
        m (position + 1) k

/-- `_vte_ring_remove`.  `free_element` only controls freeing, which has
no observable effect on the modelled state.  `if (length > 0) length--`
is natural truncated subtraction.  (When `delta + length = 0` the C code
indexes `array[-1 % max]`, which is out of bounds; the model writes slot
`0` there, an unreachable situation under the ring invariants.) -/
def _vte_ring_remove (ring : VteRing) (position : ℕ) (free_element : Bool) : VteRing :=
  let ring1 :=
    if (position : ℤ) ≤ ring.cached_item then _vte_ring_set_cache ring (-1) none else ring
  let arr0 := ring1.array.set (position % ring.max) none
  let arr1 := ringShiftDown arr0 ring.max position (ring.delta + ring.length - 1 - position)
  let arr2 := arr1.set ((ring.delta + ring.length - 1) % ring.max) none
  { ring1 with array := arr2, length := ring.length - 1 }

/-- `_vte_ring_append`: insert at `next()`.  The C `g_assert(data != NULL)`
is a debug assertion; a NULL row is in any case rejected by the
`g_return_if_fail` inside `_vte_ring_insert`. -/
def _vte_ring_append (ring : VteRing) (data : Option ℕ) : VteRing :=
  _vte_ring_insert ring (_vte_ring_next ring) data

/-- The removal loop of `_vte_ring_insert_preserve`:
`for (i = point; i > position; i--) _vte_ring_remove(ring, i - 1, FALSE);`
`count` is `point - position`; positions are removed top-down. -/
def ringRemoveSeq (ring : VteRing) (position : ℕ) : ℕ → VteRing
  | 0 => ring
  | k + 1 => ringRemoveSeq (_vte_ring_remove ring (position + k) false) position k

/-- `_vte_ring_insert_preserve`: save `[position, next())` through
`_vte_ring_index`, remove them top-down without freeing, append the new
item, then re-append the saved rows in order.  The temporary buffer
(stack or heap) is invisible in the model. -/
def _vte_ring_insert_preserve (ring : VteRing) (position : ℕ) (data : Option ℕ) : VteRing :=
  if _vte_ring_next ring < position then ring
  else
    let ring1 :=
      if (position : ℤ) ≤ ring.cached_item then _vte_ring_set_cache ring (-1) none else ring
    let point := _vte_ring_next ring1
    let tmp := (List.range (point - position)).map (fun j => _vte_ring_index ring1 (position + j))
    let ring2 := ringRemoveSeq ring1 position (point - position)
    let ring3 := _vte_ring_append ring2 data
    tmp.foldl _vte_ring_append ring3

/-! ## Ring buffer: operation sequences and validity -/

/-- A public ring mutation, as quantified over by the cache-transparency
property. -/
inductive RingOp where
  | insert (position : ℕ) (data : ℕ)
  | insertPreserve (position : ℕ) (data : ℕ)
  | remove (position : ℕ) (free_element : Bool)
  | append (data : ℕ)
  | setCache (position : ℤ) (data : Option ℕ)
deriving DecidableEq, Repr

/-- Execute one operation on a ring (with the one-slot cache active). -/
def ringExec (ring : VteRing) : RingOp → VteRing
  | .insert p d => _vte_ring_insert ring p (some d)
  | .insertPreserve p d => _vte_ring_insert_preserve ring p (some d)
  | .remove p f => _vte_ring_remove ring p f
  | .append d => _vte_ring_append ring (some d)
  | .setCache p d => _vte_ring_set_cache ring p d

/-- Execute one operation on a cache-less ring: `set_cache` is a no-op,
every other operation is unchanged. -/
def ringExecNC (ring : VteRing) : RingOp → VteRing
  | .setCache _ _ => ring
  | .insert p d => _vte_ring_insert ring p (some d)
  | .insertPreserve p d => _vte_ring_insert_preserve ring p (some d)
  | .remove p f => _vte_ring_remove ring p f
  | .append d => _vte_ring_append ring (some d)

/-- Structural well-formedness of a ring: capacity at least 2 (as
guaranteed by `_vte_ring_new`), backing array of physical size `max`,
and no more live rows than the capacity. -/
def ringDataOk (ring : VteRing) : Prop :=
  2 ≤ ring.max ∧ ring.length ≤ ring.max ∧ ring.array.length = ring.max

instance (ring : VteRing) : Decidable (ringDataOk ring) := by
  unfold ringDataOk; infer_instance

/-- The documented cache invariant: either invalidated, or `cached_item`
lies in the live window and `cached_data` is the row stored there. -/
def ringCacheOk (ring : VteRing) : Prop :=
  ring.cached_item = -1 ∨
    (0 ≤ ring.cached_item ∧
     ring.delta ≤ ring.cached_item.toNat ∧
     ring.cached_item.toNat < ring.delta + ring.length ∧
     ring.cached_data = ring.array.getD (ring.cached_item.toNat % ring.max) none)

instance (ring : VteRing) : Decidable (ringCacheOk ring) := by
  unfold ringCacheOk; infer_instance

/-- Every live slot of the ring is non-null (the ring invariant asserted
by `_vte_ring_validate`). -/
def ringSlotsOk (ring : VteRing) : Prop :=
  ∀ j, j < ring.length → (ring.array.getD ((ring.delta + j) % ring.max) none).isSome

instance (ring : VteRing) : Decidable (ringSlotsOk ring) := by
  unfold ringSlotsOk; infer_instance

/-- Per-operation precondition: `remove` requires a contained position,
`insert_preserve` a position at or above `delta`, and `set_cache` may
only store the documented memo (or invalidate). -/
def ringOpOk (ring : VteRing) : RingOp → Prop
  | .insert _ _ => True
  | .insertPreserve p _ => ring.delta ≤ p
  | .remove p _ => _vte_ring_contains ring p
  | .append _ => True
  | .setCache p d =>
      p = -1 ∨ (0 ≤ p ∧ ring.delta ≤ p.toNat ∧ p.toNat < ring.delta + ring.length ∧
        d = ring.array.getD (p.toNat % ring.max) none)

instance ringOpOkDec (ring : VteRing) (op : RingOp) : Decidable (ringOpOk ring op) := by
  cases op <;> unfold ringOpOk <;> infer_instance

/-- A sequence of operations each satisfying its precondition when it is
executed. -/
def ringOpsOk (ring : VteRing) : List RingOp → Prop
  | [] => True
  | op :: rest => ringOpOk ring op ∧ ringOpsOk (ringExec ring op) rest

instance ringOpsOkDec (ring : VteRing) : (ops : List RingOp) → Decidable (ringOpsOk ring ops)
  | [] => .isTrue trivial
  | op :: rest => @instDecidableAnd _ _ (ringOpOkDec ring op) (ringOpsOkDec (ringExec ring op) rest)

/-- The cache-free part of a ring state. -/
def ringData (ring : VteRing) : ℕ × ℕ × ℕ × List (Option ℕ) :=
  (ring.max, ring.delta, ring.length, ring.array)

/-- Appending a list of rows one by one (the re-append phase of
`_vte_ring_insert_preserve`, and plain append sequences). -/
def ringAppendAll (ring : VteRing) (L : List (Option ℕ)) : VteRing :=
  L.foldl _vte_ring_append ring

/-! ## SIXEL decoder: data model (src/sixel.cc) -/

/-- Modelled from the spec: sixel.h is not under src/; the spec names 16 as
the typical cap on parameters per command. -/
def DECSIXEL_PARAMS_MAX : ℕ := 16

/-- Modelled from the spec: sixel.h is not under src/; the spec names 65535
as the typical cap per parameter value. -/
def DECSIXEL_PARAMVALUE_MAX : ℤ := 65535

/-- Modelled from the spec: sixel.h is not under src/; the spec names 256
as the typical number of palette slots. -/
def DECSIXEL_PALETTE_MAX : ℕ := 256

/-- Modelled from the spec: sixel.h is not under src/; the spec names 4096
as the typical image width cap. -/
def DECSIXEL_WIDTH_MAX : ℕ := 4096

/-- Modelled from the spec: sixel.h is not under src/; the spec names 4096
as the typical image height cap. -/
def DECSIXEL_HEIGHT_MAX : ℕ := 4096

/-- The parse states of `sixel_state_t`. -/
inductive ParseState where
  | PS_ESC
  | PS_DCS
  | PS_DECSIXEL
  | PS_DECGRA
  | PS_DECGRI
  | PS_DECGCI
deriving DecidableEq, Repr

/-- `sixel_image_t`.  `data` is the indexed pixel buffer (`none` models a
NULL pointer after an allocation failure); cells hold palette indices.
`palette` entries are packed `r + (g<<8) + (b<<16)` C ints.  `nparams` of
the C struct is represented by the length of the `params` list in
`sixel_state_t`. -/
structure sixel_image_t where
  width : ℕ
  height : ℕ
  data : Option (List ℕ)
  ncolors : ℤ
  palette : List ℤ
  use_private_register : Bool
  palette_modified : Bool
deriving DecidableEq, Repr

/-- `sixel_state_t`.  The C `params[DECSIXEL_PARAMS_MAX]` array together
with `nparams` is modelled as a list of the first `nparams` entries:
pushes append (when the cap allows), `nparams = 0` resets to `[]`, and the
code only ever reads indices below `nparams`. -/
structure sixel_state_t where
  state : ParseState
  pos_x : ℤ
  pos_y : ℤ
  max_x : ℤ
  max_y : ℤ
  attributed_pan : ℤ
  attributed_pad : ℤ
  attributed_ph : ℤ
  attributed_pv : ℤ
  repeat_count : ℤ
  color_index : ℤ
  param : ℤ
  params : List ℤ
  image : sixel_image_t
deriving DecidableEq, Repr

/-- `SIXEL_RGB(r,g,b) = r + (g << 8) + (b << 16)` (shifts written as
multiplications; the arguments are non-negative in every use). -/
def SIXEL_RGB (r g b : ℤ) : ℤ := r + g * 256 + b * 65536

/-- `PALVAL(n,a,m) = ((n) * (a) + ((m) / 2)) / (m)` with C integer
division (truncation toward zero). -/
def PALVAL (n a m : ℤ) : ℤ := Int.tdiv (n * a + Int.tdiv m 2) m

/-- `SIXEL_XRGB(r,g,b)`: percentages 0..100 scaled to 0..255 then packed. -/
def SIXEL_XRGB (r g b : ℤ) : ℤ :=
  SIXEL_RGB (PALVAL r 255 100) (PALVAL g 255 100) (PALVAL b 255 100)

/-- The 16 DEC default colors. -/
def sixel_default_color_table : List ℤ :=
  [SIXEL_XRGB 0 0 0, SIXEL_XRGB 20 20 80, SIXEL_XRGB 80 13 13, SIXEL_XRGB 20 80 20,
   SIXEL_XRGB 80 20 80, SIXEL_XRGB 20 80 80, SIXEL_XRGB 80 80 20, SIXEL_XRGB 53 53 53,
   SIXEL_XRGB 26 26 26, SIXEL_XRGB 33 33 60, SIXEL_XRGB 60 26 26, SIXEL_XRGB 33 60 33,
   SIXEL_XRGB 60 33 60, SIXEL_XRGB 33 60 60, SIXEL_XRGB 60 60 33, SIXEL_XRGB 80 80 80]

/-- Conversion of a C `double` expression to `int`: truncation toward
zero (every value converted in `hls_to_rgb` is non-negative). -/
def ratTrunc (q : ℚ) : ℤ := Int.tdiv q.num q.den

/-- `hls_to_rgb`.  Doubles are modelled as rationals.  The `sat == 0`
branch of the C code assigns `r = g = b = lum` but every `switch` case
below overwrites all three, so it has no effect on the result and is not
reproduced.  `%` and `/` on the rotated hue match C on the non-negative
arguments produced by the parser. -/
def hls_to_rgb (hue lum sat : ℤ) : ℤ :=
  let k : ℤ := 100 - (if lum > 50 then 1 else -1) * (2 * lum - 100)
  let mx : ℚ := (lum : ℚ) + ((sat * k : ℤ) : ℚ) / 200
  let mn : ℚ := (lum : ℚ) - ((sat * k : ℤ) : ℚ) / 200
  let hue2 : ℤ := (hue + 240) % 360
  let sextant : ℤ := Int.tdiv hue2 60
  let rgb : ℤ × ℤ × ℤ :=
    if sextant = 0 then
      (ratTrunc mx, ratTrunc (mn + (mx - mn) * ((hue2 : ℚ) / 60)), ratTrunc mn)
    else if sextant = 1 then
      (ratTrunc (mn + (mx - mn) * (((120 - hue2 : ℤ) : ℚ) / 60)), ratTrunc mx, ratTrunc mn)
    else if sextant = 2 then
      (ratTrunc mn, ratTrunc mx, ratTrunc (mn + (mx - mn) * (((hue2 - 120 : ℤ) : ℚ) / 60)))
    else if sextant = 3 then
      (ratTrunc mn, ratTrunc (mn + (mx - mn) * (((240 - hue2 : ℤ) : ℚ) / 60)), ratTrunc mx)
    else if sextant = 4 then
      (ratTrunc (mn + (mx - mn) * (((hue2 - 240 : ℤ) : ℚ) / 60)), ratTrunc mn, ratTrunc mx)
    else
      (ratTrunc mx, ratTrunc mn, ratTrunc (mn + (mx - mn) * (((360 - hue2 : ℤ) : ℚ) / 60)))
  SIXEL_XRGB rgb.1 rgb.2.1 rgb.2.2

/-- `set_default_color`: palette slots 1..16 from the table, 17..232 the
6×6×6 cube, 233..256 the grey ramp (the write at slot 256 is one past the
end of the `DECSIXEL_PALETTE_MAX`-sized palette; `List.set` drops it).
The final `for (; n < DECSIXEL_PALETTE_MAX; ...)` loop starts at `n = 257`
and never runs. -/
def set_default_color (image : sixel_image_t) : ℤ × sixel_image_t :=
  let pal1 := (List.range 16).foldl
    (fun pal n => pal.set (n + 1) (sixel_default_color_table.getD n 0)) image.palette
  let pal2 := (List.range 6).foldl
    (fun pal r => (List.range 6).foldl
      (fun pal g => (List.range 6).foldl
        (fun pal b => pal.set (17 + 36 * r + 6 * g + b)
          (SIXEL_RGB ((r : ℤ) * 51) ((g : ℤ) * 51) ((b : ℤ) * 51))) pal) pal) pal1
  let pal3 := (List.range 24).foldl
    (fun pal i => pal.set (233 + i)
      (SIXEL_RGB ((i : ℤ) * 11) ((i : ℤ) * 11) ((i : ℤ) * 11))) pal2
  (0, { image with palette := pal3 })

/-- `sixel_image_init`.  `g_malloc` is modelled as always succeeding and
the buffer is zero-filled by the `memset`; the struct's palette storage
before initialization is modelled as zeros. -/
def sixel_image_init (width height : ℕ) (fgcolor bgcolor : ℤ)
    (use_private_register : Bool) : ℤ × sixel_image_t :=
  let pal0 := (List.replicate DECSIXEL_PALETTE_MAX (0 : ℤ)).set 0 bgcolor
  let pal1 := if use_private_register then pal0.set 1 fgcolor else pal0
  (0, { width := width
        height := height
        data := some (List.replicate (width * height) 0)
        ncolors := 2
        palette := pal1
        use_private_register := use_private_register
        palette_modified := false })

/-- `image_buffer_resize`, with the allocation succeeding.  The three
copy/fill loops are expressed as one row-major cell map: cell `(y, x)` of
the new `width × height` buffer is the old cell when `y < min(height,
old height)` and `x < old width`, and background `0` otherwise. -/
def image_buffer_resize (image : sixel_image_t) (width height : ℕ) : ℤ × sixel_image_t :=
  let old := image.data.getD []
  let min_height := if image.height < height then image.height else height
  (0, { image with
        width := width
        height := height
        data := some ((List.range (width * height)).map (fun cellk =>
          if cellk / width < min_height ∧ cellk % width < image.width then
            old.getD (image.width * (cellk / width) + cellk % width) 0
          else 0)) })

/-- `sixel_parser_init`. -/
def sixel_parser_init (fgcolor bgcolor : ℤ) (use_private_register : Bool) :
    ℤ × sixel_state_t :=
  let r := sixel_image_init 1 1 fgcolor bgcolor use_private_register
  (r.1,
   { state := ParseState.PS_DCS
     pos_x := 0
     pos_y := 0
     max_x := 0
     max_y := 0
     attributed_pan := 2
     attributed_pad := 1
     attributed_ph := 0
     attributed_pv := 0
     repeat_count := 1
     color_index := 16
     param := 0
     params := []
     image := r.2 })

/-- The capacity-doubling loop before painting:
`while (sx < tx || sy < ty) { sx *= 2; sy *= 2; }`.
Callers always pass `sx, sy ≥ 2`; the guard on positivity only serves
termination of the model. -/
def growXY (sx sy : ℕ) (tx ty : ℤ) : ℕ × ℕ :=
  if h : 1 ≤ sx ∧ 1 ≤ sy ∧ ((sx : ℤ) < tx ∨ (sy : ℤ) < ty) then
    growXY (2 * sx) (2 * sy) tx ty
  else (sx, sy)
termination_by ((tx - sx).toNat + (ty - sy).toNat)
decreasing_by
  obtain ⟨h1, h2, h3⟩ := h
  omega

/-- A store `data[pos] = v`.  The C code writes into the heap buffer
unconditionally; a store whose index falls outside the buffer (possible
only past the `pos_y` sentinel, where the C store is out of bounds) is
dropped by the model. -/
def setCell (data : List ℕ) (pos : ℤ) (v : ℕ) : List ℕ :=
  if 0 ≤ pos then data.set pos.toNat v else data

/-- The run-length scan
`for (n = 1; (i + n) < 6; n++) { if ((bits & c) == 0) break; c <<= 1; }`:
`runExtend bits i k` counts the remaining increments of `n`, so the C
loop's final `n` is `1 + runExtend bits i 0`. -/
def runExtend (bits i k : ℕ) : ℕ :=
  if i + 1 + k < 6 ∧ bits.testBit (i + 1 + k) then runExtend bits i (k + 1) else k
termination_by 6 - (i + 1 + k)
decreasing_by omega

/-- One step of the `repeat_count <= 1` painting loop: if bit `i` is set,
store `color_index` at `width * (pos_y + i) + pos_x` and bump
`max_x`/`max_y`.  The accumulator carries `(data, max_x, max_y)`. -/
def paintSingle (bits : ℕ) (color_index : ℤ) (width : ℕ) (pos_x pos_y : ℤ)
    (acc : List ℕ × ℤ × ℤ) (i : ℕ) : List ℕ × ℤ × ℤ :=
  if bits.testBit i then
    ((setCell acc.1 ((width : ℤ) * (pos_y + i) + pos_x) color_index.toNat),
     (if acc.2.1 < pos_x then pos_x else acc.2.1),
     (if acc.2.2 < pos_y + i then pos_y + i else acc.2.2))
  else acc

/-- The inner x-loop of the rectangle fill:
`for (x = pos_x; x < pos_x + repeat_count; ++x) data[width*y + x] = color_index;` -/
def paintRect (color : ℕ) (width : ℕ) (pos_x repeat_count : ℤ)
    (data : List ℕ) (y : ℤ) : List ℕ :=
  (List.range repeat_count.toNat).foldl
    (fun d k => setCell d ((width : ℤ) * y + (pos_x + k)) color) data

/-- The outer y-loop of the rectangle fill:
`for (y = pos_y + i; y < pos_y + i + n; ++y)`. -/
def paintRows (color : ℕ) (width : ℕ) (pos_x repeat_count pos_y : ℤ)
    (i n : ℕ) (data : List ℕ) : List ℕ :=
  (List.range n).foldl
    (fun d k => paintRect color width pos_x repeat_count d (pos_y + i + k)) data

/-- The `repeat_count > 1` painting loop over the six vertical bits, with
run collapsing: a run of `n` set bits starting at `i` paints an
`repeat_count × n` rectangle, updates the maxima, and skips ahead
(`i += n - 1` followed by the loop's `i++`). -/
def paintMulti (bits : ℕ) (color_index : ℤ) (width : ℕ)
    (pos_x pos_y repeat_count : ℤ) (i : ℕ) (acc : List ℕ × ℤ × ℤ) :
    List ℕ × ℤ × ℤ :=
  if h6 : i < 6 then
    if bits.testBit i then
      let n := 1 + runExtend bits i 0
      let data2 := paintRows color_index.toNat width pos_x repeat_count pos_y i n acc.1
      let mx := if acc.2.1 < pos_x + repeat_count - 1 then pos_x + repeat_count - 1 else acc.2.1
      let my := if acc.2.2 < pos_y + i + n - 1 then pos_y + i + n - 1 else acc.2.2
      paintMulti bits color_index width pos_x pos_y repeat_count (i + n) (data2, mx, my)
    else
      paintMulti bits color_index width pos_x pos_y repeat_count (i + 1) acc
  else acc
termination_by 6 - i
decreasing_by
  · omega
  · omega

/-- The post-resize handling of one sixel data byte in `PS_DECSIXEL`:
track `ncolors`, clamp `repeat_count` to the right edge, paint, advance
`pos_x`, reset `repeat_count`. -/
def sixelPaintCore (st : sixel_state_t) (bits : ℕ) : sixel_state_t :=
  let st2 := if st.image.ncolors < st.color_index then
      { st with image := { st.image with ncolors := st.color_index } }
    else st
  let st3 := if (st2.image.width : ℤ) < st2.pos_x + st2.repeat_count then
      { st2 with repeat_count := (st2.image.width : ℤ) - st2.pos_x }
    else st2
  let st4 :=
    if 0 < st3.repeat_count ∧ st3.pos_y - 5 < (st3.image.height : ℤ) then
      if bits ≠ 0 then
        let res :=
          if st3.repeat_count ≤ 1 then
            (List.range 6).foldl
              (paintSingle bits st3.color_index st3.image.width st3.pos_x st3.pos_y)
              (st3.image.data.getD [], st3.max_x, st3.max_y)
          else
            paintMulti bits st3.color_index st3.image.width st3.pos_x st3.pos_y
              st3.repeat_count 0 (st3.image.data.getD [], st3.max_x, st3.max_y)
        { st3 with image := { st3.image with data := some res.1 },
                   max_x := res.2.1, max_y := res.2.2 }
      else st3
    else st3
  let st5 := if 0 < st4.repeat_count then { st4 with pos_x := st4.pos_x + st4.repeat_count }
    else st4
  { st5 with repeat_count := 1 }

/-- Handling of one sixel data byte `b ∈ ['?', '~']` in `PS_DECSIXEL`
(`bits = b - '?'`): ensure capacity (doubling then clamping, resize),
then hand over to `sixelPaintCore`.  The C code runs the two parts in one
block; they are factored here, which is semantics-preserving because the
allocation-failure early exit of the resize never fires in the model.
Returns the new state and the new value of the C `status` variable. -/
def sixelPaint (st : sixel_state_t) (bits : ℕ) (status : ℤ) : sixel_state_t × ℤ :=
  let needResize :=
    ((st.image.width : ℤ) < st.pos_x + st.repeat_count ∨
      (st.image.height : ℤ) < st.pos_y + 6) ∧
    st.image.width < DECSIXEL_WIDTH_MAX ∧ st.image.height < DECSIXEL_HEIGHT_MAX
  if needResize then
    let g := growXY (st.image.width * 2) (st.image.height * 2)
      (st.pos_x + st.repeat_count) (st.pos_y + 6)
    let sx := if DECSIXEL_WIDTH_MAX < g.1 then DECSIXEL_WIDTH_MAX else g.1
    let sy := if DECSIXEL_HEIGHT_MAX < g.2 then DECSIXEL_HEIGHT_MAX else g.2
    let r := image_buffer_resize st.image sx sy
    (sixelPaintCore { st with image := r.2 } bits, r.1)
  else (sixelPaintCore st bits, status)

/-- The parameter list after the push a `DECGRA`/`DECGCI` terminator
performs: the pending `param` is appended when there is room. -/
def graParams (st : sixel_state_t) : List ℤ :=
  if st.params.length < DECSIXEL_PARAMS_MAX then st.params ++ [st.param]
  else st.params

/-- The `ph` the `DECGRA` terminator reads: the third pushed parameter
when present and positive, otherwise the current `attributed_ph`. -/
def graPH (st : sixel_state_t) : ℤ :=
  if 2 < (graParams st).length ∧ 0 < (graParams st).getD 2 0 then (graParams st).getD 2 0
  else st.attributed_ph

/-- The `pv` the `DECGRA` terminator reads: the fourth pushed parameter
when present and positive, otherwise the current `attributed_pv`. -/
def graPV (st : sixel_state_t) : ℤ :=
  if 3 < (graParams st).length ∧ 0 < (graParams st).getD 3 0 then (graParams st).getD 3 0
  else st.attributed_pv

/-- The terminator arm of `PS_DECGRA` (`DECGRA`, raster attributes): push
the pending parameter, read `pad`/`pan`/`ph`/`pv`, floor `pan`/`pad` at 1,
and when the image is smaller than `ph × pv` grow it to their maxima with
the source's clamp at `DECSIXEL_WIDTH_MAX`/`DECSIXEL_HEIGHT_MAX`; the
state moves back to `PS_DECSIXEL`.  Returns the state and the C `status`. -/
def stepGRAattr (st : sixel_state_t) (status : ℤ) : sixel_state_t × ℤ :=
  let pad := if 0 < (graParams st).length then (graParams st).getD 0 0
    else st.attributed_pad
  let pan := if 1 < (graParams st).length then (graParams st).getD 1 0
    else st.attributed_pan
  let pan2 := if pan ≤ 0 then 1 else pan
  let pad2 := if pad ≤ 0 then 1 else pad
  let stA := { st with attributed_pan := pan2, attributed_pad := pad2,
                       attributed_ph := graPH st, attributed_pv := graPV st,
                       state := ParseState.PS_DECSIXEL, param := 0, params := [] }
  if (st.image.width : ℤ) < graPH st ∨ (st.image.height : ℤ) < graPV st then
    let sx := if (st.image.width : ℤ) > graPH st then (st.image.width : ℤ) else graPH st
    let sy := if (st.image.height : ℤ) > graPV st then (st.image.height : ℤ) else graPV st
    let sx2 := if ((DECSIXEL_WIDTH_MAX : ℤ)) < sx then (DECSIXEL_WIDTH_MAX : ℤ) else sx
    let sy2 := if ((DECSIXEL_HEIGHT_MAX : ℤ)) < sy then (DECSIXEL_HEIGHT_MAX : ℤ) else sy
    let r := image_buffer_resize st.image sx2.toNat sy2.toNat
    ({ stA with image := r.2 }, r.1)
  else (stA, status)

/-- The palette slot the `DECGCI` terminator selects: one more than the
first pushed parameter, clamped into `[0, DECSIXEL_PALETTE_MAX)`; the
current `color_index` when no parameter was given. -/
def gciCI (st : sixel_state_t) : ℤ :=
  if 0 < (graParams st).length then
    let c0 := 1 + (graParams st).getD 0 0
    (if c0 < 0 then 0
     else if (DECSIXEL_PALETTE_MAX : ℤ) ≤ c0 then (DECSIXEL_PALETTE_MAX : ℤ) - 1
     else c0)
  else st.color_index

/-- The terminator arm of `PS_DECGCI` (`DECGCI`, color introducer): push
the pending parameter, clamp the selected palette slot into
`[0, DECSIXEL_PALETTE_MAX)`, and when five parameters are present install
the HLS- or RGB-specified color (percentages and hue clamped as in the
source); the state moves back to `PS_DECSIXEL`.  Returns the state and
the C `status` (which this arm never changes). -/
def stepGCIcolor (st : sixel_state_t) (status : ℤ) : sixel_state_t × ℤ :=
  let params2 := graParams st
  let ci := gciCI st
  let res :=
    if 4 < params2.length then
      if params2.getD 1 0 = 1 then
        let params3 := if 360 < params2.getD 2 0 then params2.set 2 360 else params2
        let params4 := if 100 < params3.getD 3 0 then params3.set 3 100 else params3
        let params5 := if 100 < params4.getD 4 0 then params4.set 4 100 else params4
        (params5,
         { st.image with
           palette_modified := true
           palette := st.image.palette.set ci.toNat
             (hls_to_rgb (params5.getD 2 0) (params5.getD 3 0) (params5.getD 4 0)) })
      else if params2.getD 1 0 = 2 then
        let params3 := if 100 < params2.getD 2 0 then params2.set 2 100 else params2
        let params4 := if 100 < params3.getD 3 0 then params3.set 3 100 else params3
        let params5 := if 100 < params4.getD 4 0 then params4.set 4 100 else params4
        (params5,
         { st.image with
           palette_modified := true
           palette := st.image.palette.set ci.toNat
             (SIXEL_XRGB (params5.getD 2 0) (params5.getD 3 0) (params5.getD 4 0)) })
      else (params2, { st.image with palette_modified := true })
    else (params2, st.image)
  ({ st with state := ParseState.PS_DECSIXEL, params := res.1, param := 0,
             color_index := ci, image := res.2 }, status)

/-- One dispatch of the `while` loop body of `sixel_parser_parse` on the
next byte `b`, carrying the C `status` variable.  Returns
`(state, status, consumed, stop)`: `consumed` is whether `p` was
advanced, `stop` whether the branch ended with `goto end` (only the
`PS_ESC` arm does, short of allocation failure, which the model excludes). -/
def sixelStep (st : sixel_state_t) (b : ℕ) (status : ℤ) :
    sixel_state_t × ℤ × Bool × Bool :=
  match st.state with
  | ParseState.PS_ESC =>
      if b = 0x5c ∨ b = 0x9c then (st, status, true, true)
      else if b = 0x50 then
        ({ st with param := -1, state := ParseState.PS_DCS }, status, true, true)
      else (st, status, true, true)
  | ParseState.PS_DCS =>
      if b = 0x1b then ({ st with state := ParseState.PS_ESC }, status, true, false)
      else if 0x30 ≤ b ∧ b ≤ 0x39 then
        let p0 := if st.param < 0 then 0 else st.param
        ({ st with param := p0 * 10 + ((b - 0x30 : ℕ) : ℤ) }, status, true, false)
      else if b = 0x3b then
        let p0 := if st.param < 0 then 0 else st.param
        let params2 := if st.params.length < DECSIXEL_PARAMS_MAX then st.params ++ [p0]
          else st.params
        ({ st with params := params2, param := 0 }, status, true, false)
      else if b = 0x71 then
        let params2 := if 0 ≤ st.param ∧ st.params.length < DECSIXEL_PARAMS_MAX then
            st.params ++ [st.param]
          else st.params
        let pn1 := params2.getD 0 0
        let pad1 := if 0 < params2.length then
            (if pn1 = 0 ∨ pn1 = 1 then 2
             else if pn1 = 2 then 5
             else if pn1 = 3 ∨ pn1 = 4 then 4
             else if pn1 = 5 ∨ pn1 = 6 then 3
             else if pn1 = 7 ∨ pn1 = 8 then 2
             else if pn1 = 9 then 1
             else 2)
          else st.attributed_pad
        let res :=
          if 2 < params2.length then
            let params3 := if params2.getD 2 0 = 0 then params2.set 2 10 else params2
            let pan2 := Int.tdiv (st.attributed_pan * params3.getD 2 0) 10
            let pad2 := Int.tdiv (pad1 * params3.getD 2 0) 10
            ((if pan2 ≤ 0 then 1 else pan2), (if pad2 ≤ 0 then 1 else pad2))
          else (st.attributed_pan, pad1)
        ({ st with attributed_pan := res.1, attributed_pad := res.2,
                   params := [], state := ParseState.PS_DECSIXEL }, status, true, false)
      else (st, status, true, false)
  | ParseState.PS_DECSIXEL =>
      if b = 0x1b then ({ st with state := ParseState.PS_ESC }, status, true, false)
      else if b = 0x22 then
        ({ st with param := 0, params := [], state := ParseState.PS_DECGRA }, status, true, false)
      else if b = 0x21 then
        ({ st with param := 0, params := [], state := ParseState.PS_DECGRI }, status, true, false)
      else if b = 0x23 then
        ({ st with param := 0, params := [], state := ParseState.PS_DECGCI }, status, true, false)
      else if b = 0x24 then ({ st with pos_x := 0 }, status, true, false)
      else if b = 0x2d then
        ({ st with pos_x := 0,
                   pos_y := if st.pos_y < (DECSIXEL_HEIGHT_MAX : ℤ) - 5 - 6 then st.pos_y + 6
                            else (DECSIXEL_HEIGHT_MAX : ℤ) + 1 }, status, true, false)
      else if 0x3f ≤ b ∧ b ≤ 0x7e then
        let r := sixelPaint st (b - 0x3f) status
        (r.1, r.2, true, false)
      else (st, status, true, false)
  | ParseState.PS_DECGRA =>
      if b = 0x1b then ({ st with state := ParseState.PS_ESC }, status, true, false)
      else if 0x30 ≤ b ∧ b ≤ 0x39 then
        let q := st.param * 10 + ((b - 0x30 : ℕ) : ℤ)
        ({ st with param := if DECSIXEL_PARAMVALUE_MAX < q then DECSIXEL_PARAMVALUE_MAX else q },
         status, true, false)
      else if b = 0x3b then
        let params2 := if st.params.length < DECSIXEL_PARAMS_MAX then st.params ++ [st.param]
          else st.params
        ({ st with params := params2, param := 0 }, status, true, false)
      else
        let r := stepGRAattr st status
        (r.1, r.2, false, false)
  | ParseState.PS_DECGRI =>
      if b = 0x1b then ({ st with state := ParseState.PS_ESC }, status, true, false)
      else if 0x30 ≤ b ∧ b ≤ 0x39 then
        let q := st.param * 10 + ((b - 0x30 : ℕ) : ℤ)
        ({ st with param := if DECSIXEL_PARAMVALUE_MAX < q then DECSIXEL_PARAMVALUE_MAX else q },
         status, true, false)
      else
        ({ st with repeat_count := if st.param = 0 then 1 else st.param,
                   state := ParseState.PS_DECSIXEL, param := 0, params := [] },
         status, false, false)
  | ParseState.PS_DECGCI =>
      if b = 0x1b then ({ st with state := ParseState.PS_ESC }, status, true, false)
      else if 0x30 ≤ b ∧ b ≤ 0x39 then
        let q := st.param * 10 + ((b - 0x30 : ℕ) : ℤ)
        ({ st with param := if DECSIXEL_PARAMVALUE_MAX < q then DECSIXEL_PARAMVALUE_MAX else q },
         status, true, false)
      else if b = 0x3b then
        let params2 := if st.params.length < DECSIXEL_PARAMS_MAX then st.params ++ [st.param]
          else st.params
        ({ st with params := params2, param := 0 }, status, true, false)
      else
        let r := stepGCIcolor st status
        (r.1, r.2, false, false)

/-- One byte of the `while` loop: dispatch once; if the byte was not
consumed (the non-consuming arms all move to `PS_DECSIXEL`, which always
consumes), dispatch again in the new state.  Returns
`(state, status, stop)`. -/
def sixelProcessByte (st : sixel_state_t) (b : ℕ) (status : ℤ) :
    sixel_state_t × ℤ × Bool :=
  let r1 := sixelStep st b status
  if r1.2.2.1 then (r1.1, r1.2.1, r1.2.2.2)
  else
    let r2 := sixelStep r1.1 b r1.2.1
    (r2.1, r2.2.1, r2.2.2.2)

/-- The byte loop of `sixel_parser_parse`: `status` is the C local,
`-1` at entry, set by each `image_buffer_resize` call, and `0` after the
loop runs to completion; the `PS_ESC` arm returns the current `status`
through `goto end`. -/
def sixelParseLoop (st : sixel_state_t) (bs : List ℕ) (status : ℤ) :
    ℤ × sixel_state_t :=
  match bs with
  | [] => (0, st)
  | b :: rest =>
      let r := sixelProcessByte st b status
      if r.2.2 then (r.2.1, r.1) else sixelParseLoop r.1 rest r.2.1

/-- `sixel_parser_parse`: fail fast on a NULL image buffer, otherwise run
the byte loop with `status = -1`.  Returns the C return value and the
final state. -/
def sixel_parser_parse (st : sixel_state_t) (bs : List ℕ) : ℤ × sixel_state_t :=
  if st.image.data.isNone then (-1, st) else sixelParseLoop st bs (-1)

/-- Whether `sixel_parser_parse` would leave the loop through the
`PS_ESC` arm before any successful resize of the call: exactly then the
`status` local is still `-1` when `goto end` runs.  `resized` records
whether a resize has already happened in this call. -/
def escEndsNoResize (st : sixel_state_t) (bs : List ℕ) (resized : Bool) : Bool :=
  match bs with
  | [] => false
  | b :: rest =>
      let r := sixelProcessByte st b (if resized then 0 else -1)
      if r.2.2 then decide (r.2.1 ≠ 0) else escEndsNoResize r.1 rest (decide (r.2.1 = 0))

/-- The palette-defaulting step of `sixel_parser_finalize`: load the
default color table when the private register is in use with more than
two colors and an untouched palette. -/
def finalizeDefault (image1 : sixel_image_t) : sixel_image_t :=
  if image1.use_private_register ∧ 2 < image1.ncolors ∧ ¬image1.palette_modified then
    (set_default_color image1).2
  else image1

/-- The BGRA emission loop of `sixel_parser_finalize`: for each cell in
scan order, four bytes `color >> 16`, `color >> 8`, `color >> 0`, `0xff`
of the palette entry the cell indexes. -/
def finalizeEmit (image2 : sixel_image_t) : List ℕ :=
  (List.range (image2.height * image2.width)).flatMap (fun k =>
    let color := image2.palette.getD ((image2.data.getD []).getD k 0) 0
    [((Int.tdiv color 65536) % 256).toNat, ((Int.tdiv color 256) % 256).toNat,
     (color % 256).toNat, 0xff])

/-- `sixel_parser_finalize`: bump and clamp the maxima, shrink the image
when it exceeds them, load the default palette for the private register
case, and emit the BGRA bytes in scan order.  Returns the status, the
final state, and the emitted byte stream. -/
def sixel_parser_finalize (st : sixel_state_t) : ℤ × sixel_state_t × List ℕ :=
  let mx := if st.max_x + 1 < st.attributed_ph then st.attributed_ph else st.max_x + 1
  let my := if st.max_y + 1 < st.attributed_pv then st.attributed_pv else st.max_y + 1
  let image1 :=
    if (st.image.width : ℤ) > mx ∨ (st.image.height : ℤ) > my then
      (image_buffer_resize st.image mx.toNat my.toNat).2
    else st.image
  let image2 := finalizeDefault image1
  (0, { st with max_x := mx, max_y := my, image := image2 }, finalizeEmit image2)



/-! ## SIXEL decoder: invariants and finalize characterization -/

/-- The grid invariant the spec states: width and height within bounds
and every cell of the data buffer a valid palette index. -/
def sixelBounds (st : sixel_state_t) : Prop :=
  1 ≤ st.image.width ∧ st.image.width ≤ DECSIXEL_WIDTH_MAX ∧
  1 ≤ st.image.height ∧ st.image.height ≤ DECSIXEL_HEIGHT_MAX ∧
  ∀ c ∈ st.image.data.getD [], c < DECSIXEL_PALETTE_MAX

/-- The auxiliary step invariant: `sixelBounds` together with the color
register staying below `DECSIXEL_PALETTE_MAX`, which the paint path
needs to keep the cells in range. -/
def sixelInv (st : sixel_state_t) : Prop :=
  sixelBounds st ∧ st.color_index < (DECSIXEL_PALETTE_MAX : ℤ)

/-- A decoder state whose image is 1 by 1 while the raster attributes
announce 2 by 2. -/
def stC3cex : sixel_state_t :=
  ⟨ParseState.PS_DECSIXEL, 0, 0, 0, 0, 2, 1, 2, 2, 1, 16, 0, [],
   ⟨1, 1, some [0], 2, [0], false, false⟩⟩

/-- A decoder state whose 2 by 4 image exceeds the final maxima, so that
finalize shrinks it. -/
def stC3wit : sixel_state_t :=
  ⟨ParseState.PS_DECSIXEL, 0, 3, 0, 2, 2, 1, 0, 0, 1, 16, 0, [],
   ⟨2, 4, some [0, 1, 2, 3, 0, 1, 2, 3], 2, [7], false, false⟩⟩


/-! ## Ring buffer: theorems -/

/-! ## Ring buffer: basic lemmas -/

theorem ringMod_ne {a b m : ℕ} (hab : a < b) (hd : b - a < m) : a % m ≠ b % m := by
  intro h
  have hdvd : m ∣ (b - a) := (Nat.modEq_iff_dvd' hab.le).mp h
  have := Nat.le_of_dvd (by omega) hdvd
  omega

theorem ringGetD_set_ne (l : List (Option ℕ)) {a b : ℕ} (v : Option ℕ) (h : a ≠ b) :
    (l.set a v).getD b none = l.getD b none := by
  simp [List.getD, List.getElem?_set_ne h]

theorem ringGetD_set_self (l : List (Option ℕ)) {a : ℕ} (v : Option ℕ) (h : a < l.length) :
    (l.set a v).getD a none = v := by
  simp [List.getD, List.getElem?_set_self, h]

theorem ring_append_char (ring : VteRing) (d : Option ℕ) (hd : d.isSome) :
    (_vte_ring_append ring d).max = ring.max ∧
    (_vte_ring_append ring d).array
      = ring.array.set ((ring.delta + ring.length) % ring.max) d ∧
    (_vte_ring_append ring d).delta
      = (if ring.length = ring.max then ring.delta + 1 else ring.delta) ∧
    (_vte_ring_append ring d).length
      = (if ring.length = ring.max then ring.length else ring.length + 1) := by
  have hdn : d.isNone = false := by cases d <;> simp_all
  unfold _vte_ring_append _vte_ring_next _vte_ring_insert _vte_ring_set_cache
  simp only [hdn]
  split_ifs <;> simp_all

theorem ring_append_cache_neg (ring : VteRing) (d : Option ℕ) (h : ring.cached_item = -1) :
    (_vte_ring_append ring d).cached_item = -1 := by
  unfold _vte_ring_append _vte_ring_next _vte_ring_insert _vte_ring_set_cache
  split_ifs <;> simp_all

theorem ringAppendAll_nil (ring : VteRing) : ringAppendAll ring [] = ring := rfl

theorem ringAppendAll_cons (ring : VteRing) (d : Option ℕ) (T : List (Option ℕ)) :
    ringAppendAll ring (d :: T) = ringAppendAll (_vte_ring_append ring d) T := rfl

theorem ringAppendAll_char (L : List (Option ℕ)) :
    ∀ (ring : VteRing), (∀ o ∈ L, o.isSome) → ring.length ≤ ring.max →
    ring.array.length = ring.max → 1 ≤ ring.max →
    (ringAppendAll ring L).max = ring.max ∧
    (ringAppendAll ring L).array.length = ring.max ∧
    (ringAppendAll ring L).delta = ring.delta + (ring.length + L.length - ring.max) ∧
    (ringAppendAll ring L).delta + (ringAppendAll ring L).length
      = ring.delta + ring.length + L.length ∧
    ∀ p, (ringAppendAll ring L).delta ≤ p → p < ring.delta + ring.length + L.length →
      (ringAppendAll ring L).array.getD (p % ring.max) none =
        if p < ring.delta + ring.length then ring.array.getD (p % ring.max) none
        else L.getD (p - (ring.delta + ring.length)) none := by
  induction L with
  | nil =>
      intro ring hall hlen harr hm
      rw [ringAppendAll_nil]
      refine ⟨rfl, harr, by simp only [List.length_nil, Nat.add_zero]; omega, by simp, ?_⟩
      intro p hp1 hp2
      simp only [List.length_nil, Nat.add_zero] at hp2
      rw [if_pos hp2]
  | cons d T ih =>
      intro ring hall hlen harr hm
      have hd : d.isSome := hall d (by simp)
      obtain ⟨hmax1, harr1, hdelta1, hlen1⟩ := ring_append_char ring d hd
      set r1 := _vte_ring_append ring d with hr1
      rw [ringAppendAll_cons]
      have hlen1le : r1.length ≤ r1.max := by
        rw [hmax1, hlen1]; split_ifs with hfull <;> omega
      have harr1len : r1.array.length = r1.max := by
        rw [hmax1, harr1]; simp [harr]
      have hm1 : 1 ≤ r1.max := by rw [hmax1]; exact hm
      obtain ⟨ihmax, iharr, ihdelta, ihsum, ihslot⟩ :=
        ih r1 (fun o ho => hall o (by simp [ho])) hlen1le harr1len hm1
      have hnext1 : r1.delta + r1.length = ring.delta + ring.length + 1 := by
        rw [hdelta1, hlen1]; split_ifs with hfull <;> omega
      have hdformula :
          (ringAppendAll r1 T).delta = ring.delta + (ring.length + (d :: T).length - ring.max) := by
        rw [ihdelta, hmax1, hdelta1, hlen1]
        simp only [List.length_cons]
        split_ifs with hfull <;> omega
      refine ⟨by rw [ihmax, hmax1], by rw [iharr, hmax1], hdformula, ?_, ?_⟩
      · rw [ihsum, hnext1]; simp only [List.length_cons]; omega
      · intro p hp1 hp2
        have hp2T : p < r1.delta + r1.length + T.length := by
          rw [hnext1]; simp only [List.length_cons] at hp2; omega
        have hslot := ihslot p hp1 hp2T
        rw [hmax1] at hslot
        rw [hslot]
        have hp1f : ring.delta + (ring.length + (d :: T).length - ring.max) ≤ p := by
          rw [← hdformula]; exact hp1
        simp only [List.length_cons] at hp1f
        rcases Nat.lt_trichotomy p (ring.delta + ring.length) with hlt | heq | hgt
        · rw [if_pos (by omega : p < r1.delta + r1.length), if_pos hlt, harr1]
          refine ringGetD_set_ne ring.array d (Ne.symm (ringMod_ne hlt ?_))
          by_cases hfull : ring.length = ring.max <;> omega
        · rw [if_pos (by omega : p < r1.delta + r1.length),
            if_neg (by omega : ¬ p < ring.delta + ring.length), harr1, heq]
          rw [Nat.sub_self, List.getD_cons_zero]
          exact ringGetD_set_self ring.array d (by rw [harr]; exact Nat.mod_lt _ hm)
        · rw [if_neg (by omega : ¬ p < r1.delta + r1.length),
            if_neg (by omega : ¬ p < ring.delta + ring.length), hnext1]
          have hk : p - (ring.delta + ring.length) = (p - (ring.delta + ring.length + 1)) + 1 := by
            omega
          rw [hk, List.getD_cons_succ]

theorem ringShiftUp_length (count : ℕ) : ∀ (arr : List (Option ℕ)) (m position : ℕ),
    (ringShiftUp arr m position count).length = arr.length := by
  induction count with
  | zero => intro arr m position; rfl
  | succ k ih => intro arr m position; rw [ringShiftUp, ih]; simp

theorem ringShiftUp_getD_ne (count : ℕ) : ∀ (arr : List (Option ℕ)) (m position t : ℕ),
    (∀ j, j < count → (position + j + 1) % m ≠ t) →
    (ringShiftUp arr m position count).getD t none = arr.getD t none := by
  induction count with
  | zero => intro arr m position t _; rfl
  | succ k ih =>
      intro arr m position t h
      rw [ringShiftUp, ih _ _ _ _ (fun j hj => h j (by omega)),
        ringGetD_set_ne _ _ (h k (by omega))]

theorem ringShiftDown_length (count : ℕ) : ∀ (arr : List (Option ℕ)) (m position : ℕ),
    (ringShiftDown arr m position count).length = arr.length := by
  induction count with
  | zero => intro arr m position; rfl
  | succ k ih => intro arr m position; rw [ringShiftDown, ih]; simp

theorem ringShiftDown_getD_ne (count : ℕ) : ∀ (arr : List (Option ℕ)) (m position t : ℕ),
    (∀ j, j < count → (position + j) % m ≠ t) →
    (ringShiftDown arr m position count).getD t none = arr.getD t none := by
  induction count with
  | zero => intro arr m position t _; rfl
  | succ k ih =>
      intro arr m position t h
      rw [ringShiftDown, ih _ _ _ _ (fun j hj => by
          have := h (j + 1) (by omega)
          simpa [Nat.add_assoc, Nat.add_comm, Nat.add_left_comm] using this),
        ringGetD_set_ne _ _ (by simpa using h 0 (by omega))]

theorem ring_remove_top_char (ring : VteRing) (f : Bool) (hlen : 1 ≤ ring.length) :
    (_vte_ring_remove ring (ring.delta + ring.length - 1) f).max = ring.max ∧
    (_vte_ring_remove ring (ring.delta + ring.length - 1) f).delta = ring.delta ∧
    (_vte_ring_remove ring (ring.delta + ring.length - 1) f).length = ring.length - 1 ∧
    (_vte_ring_remove ring (ring.delta + ring.length - 1) f).array
      = ring.array.set ((ring.delta + ring.length - 1) % ring.max) none := by
  unfold _vte_ring_remove _vte_ring_set_cache
  have hc : ring.delta + ring.length - 1 - (ring.delta + ring.length - 1) = 0 := Nat.sub_self _
  split_ifs <;> simp_all [ringShiftDown, List.set_set]

theorem ring_remove_cache_keep (ring : VteRing) (p : ℕ) (f : Bool)
    (h : ring.cached_item < (p : ℤ)) :
    (_vte_ring_remove ring p f).cached_item = ring.cached_item ∧
    (_vte_ring_remove ring p f).cached_data = ring.cached_data := by
  unfold _vte_ring_remove _vte_ring_set_cache
  split_ifs with hc
  · omega
  · exact ⟨rfl, rfl⟩

theorem ringRemoveSeq_char (count : ℕ) :
    ∀ (ring : VteRing) (position : ℕ), position + count = ring.delta + ring.length →
    ring.delta ≤ position →
    (ringRemoveSeq ring position count).max = ring.max ∧
    (ringRemoveSeq ring position count).delta = ring.delta ∧
    (ringRemoveSeq ring position count).length = ring.length - count ∧
    (ringRemoveSeq ring position count).array.length = ring.array.length ∧
    ∀ t, (∀ k, k < count → (position + k) % ring.max ≠ t) →
      (ringRemoveSeq ring position count).array.getD t none = ring.array.getD t none := by
  induction count with
  | zero =>
      intro ring position h1 h2
      exact ⟨rfl, rfl, rfl, rfl, fun t _ => rfl⟩
  | succ k ih =>
      intro ring position h1 h2
      have htop : position + k = ring.delta + ring.length - 1 := by omega
      have hlen : 1 ≤ ring.length := by omega
      obtain ⟨c1, c2, c3, c4⟩ := ring_remove_top_char ring false hlen
      rw [ringRemoveSeq, htop]
      set r1 := _vte_ring_remove ring (ring.delta + ring.length - 1) false with hr1
      obtain ⟨i1, i2, i3, i4, i5⟩ := ih r1 position (by omega) (by omega)
      refine ⟨by rw [i1, c1], by rw [i2, c2], by rw [i3, c3]; omega,
        by rw [i4, c4]; simp, ?_⟩
      intro t ht
      rw [i5 t (by intro j hj; rw [c1]; exact ht j (by omega)), c4,
        ringGetD_set_ne _ _ (by rw [← htop]; exact ht k (by omega))]

theorem ringRemoveSeq_cache_keep (count : ℕ) :
    ∀ (ring : VteRing) (position : ℕ), ring.cached_item < (position : ℤ) →
    (ringRemoveSeq ring position count).cached_item = ring.cached_item ∧
    (ringRemoveSeq ring position count).cached_data = ring.cached_data := by
  induction count with
  | zero => intro ring position _; exact ⟨rfl, rfl⟩
  | succ k ih =>
      intro ring position h
      obtain ⟨k1, k2⟩ := ring_remove_cache_keep ring (position + k) false
        (by push_cast; omega)
      rw [ringRemoveSeq]
      obtain ⟨j1, j2⟩ := ih (_vte_ring_remove ring (position + k) false) position (by omega)
      exact ⟨by rw [j1, k1], by rw [j2, k2]⟩

theorem ringAppendAll_cache_neg (L : List (Option ℕ)) :
    ∀ (ring : VteRing), ring.cached_item = -1 →
    (ringAppendAll ring L).cached_item = -1 := by
  induction L with
  | nil => intro ring h; exact h
  | cons d T ih =>
      intro ring h
      rw [ringAppendAll_cons]
      exact ih _ (ring_append_cache_neg ring d h)

theorem ring_index_eq_of_cacheOk (r : VteRing) (hC : ringCacheOk r) (p : ℕ)
    (h1 : r.delta ≤ p) (h2 : p < r.delta + r.length) :
    _vte_ring_index r p = r.array.getD (p % r.max) none := by
  unfold _vte_ring_index
  split_ifs with hp
  · rcases hC with h | ⟨hc0, hc1, hc2, hc3⟩
    · omega
    · have hpt : r.cached_item.toNat = p := by omega
      rw [hc3, hpt]
  · rfl

theorem ringGetD_map_some (rows : List ℕ) (p : ℕ) (h : p < rows.length) :
    (rows.map some).getD p none = some (rows.getD p 0) := by
  simp [List.getD, List.getElem?_map, List.getElem?_eq_getElem h]

/-- Claim C2: for every ring created with capacity `max ≥ 2` and delta origin 0,
after `n` appends of non-null rows the ring satisfies
`length = min(n, max)` and `delta = max(0, n − max)`, and for every
`0 ≤ i < length`, `index(delta + i)` returns the `(i+1)`-th oldest live
row, i.e. the row appended at step `n − length + i + 1`. -/
theorem ring_claim_C2 (m : ℕ) (hm : 2 ≤ m) (rows : List ℕ) :
    (ringAppendAll (_vte_ring_new_with_delta m 0) (rows.map some)).length
        = Nat.min rows.length m ∧
    (ringAppendAll (_vte_ring_new_with_delta m 0) (rows.map some)).delta
        = rows.length - Nat.min rows.length m ∧
    ∀ i, i < Nat.min rows.length m →
      _vte_ring_index (ringAppendAll (_vte_ring_new_with_delta m 0) (rows.map some))
          (rows.length - Nat.min rows.length m + i)
        = some (rows.getD (rows.length - Nat.min rows.length m + i) 0) := by
  have hminf : Nat.min rows.length m = rows.length ∨ Nat.min rows.length m = m := by
    rcases le_total rows.length m with h | h
    · exact Or.inl (Nat.min_eq_left h)
    · exact Or.inr (Nat.min_eq_right h)
  have hmin1 : Nat.min rows.length m ≤ rows.length := Nat.min_le_left _ _
  have hmin2 : Nat.min rows.length m ≤ m := Nat.min_le_right _ _
  have hmx : Nat.max m 2 = m := Nat.max_eq_left hm
  have hr0max : (_vte_ring_new_with_delta m 0).max = m := by
    simp [_vte_ring_new_with_delta, _vte_ring_new, hmx]
  have hr0delta : (_vte_ring_new_with_delta m 0).delta = 0 := rfl
  have hr0len : (_vte_ring_new_with_delta m 0).length = 0 := rfl
  have hr0arr : (_vte_ring_new_with_delta m 0).array.length = m := by
    simp [_vte_ring_new_with_delta, _vte_ring_new, hmx]
  have hr0cache : (_vte_ring_new_with_delta m 0).cached_item = -1 := rfl
  obtain ⟨cmax, carr, cdelta, csum, cslot⟩ :=
    ringAppendAll_char (rows.map some) (_vte_ring_new_with_delta m 0)
      (by intro o ho; simp at ho; obtain ⟨v, _, hv⟩ := ho; rw [← hv]; rfl)
      (by rw [hr0len]; omega) (by rw [hr0arr, hr0max]) (by rw [hr0max]; omega)
  rw [hr0max] at cmax carr cdelta cslot
  rw [hr0delta, hr0len] at cdelta csum cslot
  simp only [List.length_map, Nat.zero_add] at cdelta csum cslot
  have hdelta : (ringAppendAll (_vte_ring_new_with_delta m 0) (rows.map some)).delta
      = rows.length - Nat.min rows.length m := by
    rw [cdelta]; omega
  have hlen : (ringAppendAll (_vte_ring_new_with_delta m 0) (rows.map some)).length
      = Nat.min rows.length m := by omega
  refine ⟨hlen, hdelta, ?_⟩
  intro i hi
  have hcache := ringAppendAll_cache_neg (rows.map some) _ hr0cache
  have hp1 : (ringAppendAll (_vte_ring_new_with_delta m 0) (rows.map some)).delta
      ≤ rows.length - Nat.min rows.length m + i := by omega
  have hp2 : rows.length - Nat.min rows.length m + i < rows.length := by omega
  have hval := cslot (rows.length - Nat.min rows.length m + i) hp1 hp2
  rw [if_neg (by omega)] at hval
  unfold _vte_ring_index
  rw [if_neg (by rw [hcache]; omega), cmax, hval,
    ringGetD_map_some rows _ (by omega)]
  simp

theorem ring_insert_noop (ring : VteRing) (p : ℕ) (d : Option ℕ)
    (h : p < ring.delta ∨ ring.delta + ring.length < p ∨ d.isNone) :
    _vte_ring_insert ring p d = ring := by
  unfold _vte_ring_insert
  rw [if_pos h]

theorem ring_append_cache_char (ring : VteRing) (d : Option ℕ) (hd : d.isSome) :
    ((_vte_ring_append ring d).cached_item, (_vte_ring_append ring d).cached_data)
      = if ring.length = ring.max ∧ ring.cached_item < ((ring.delta + 1 : ℕ) : ℤ)
        then ((-1 : ℤ), (none : Option ℕ))
        else (ring.cached_item, ring.cached_data) := by
  have hdn : d.isNone = false := by cases d <;> simp_all
  unfold _vte_ring_append _vte_ring_next _vte_ring_insert _vte_ring_set_cache
  simp only [hdn]
  split_ifs <;> simp_all <;> omega

theorem ring_insert_mid_char (ring : VteRing) (p : ℕ) (d : Option ℕ) (hd : d.isSome)
    (h1 : ring.delta ≤ p) (h2 : p < ring.delta + ring.length) :
    (_vte_ring_insert ring p d).max = ring.max ∧
    (_vte_ring_insert ring p d).delta = ring.delta ∧
    (_vte_ring_insert ring p d).length = min (ring.length + 1) ring.max ∧
    (_vte_ring_insert ring p d).array
      = (ringShiftUp ring.array ring.max p
          ((if ring.length = ring.max then ring.delta + ring.length - 1
            else ring.delta + ring.length) - p)).set (p % ring.max) d ∧
    ((_vte_ring_insert ring p d).cached_item, (_vte_ring_insert ring p d).cached_data)
      = if (p : ℤ) ≤ ring.cached_item then ((-1 : ℤ), (none : Option ℕ))
        else (ring.cached_item, ring.cached_data) := by
  have hdn : d.isNone = false := by cases d <;> simp_all
  unfold _vte_ring_insert _vte_ring_set_cache
  rw [if_neg (by simp [hdn]; omega), if_neg (by omega)]
  split_ifs <;> simp_all

theorem ring_remove_char (ring : VteRing) (p : ℕ) (f : Bool) :
    (_vte_ring_remove ring p f).max = ring.max ∧
    (_vte_ring_remove ring p f).delta = ring.delta ∧
    (_vte_ring_remove ring p f).length = ring.length - 1 ∧
    (_vte_ring_remove ring p f).array
      = ((ringShiftDown (ring.array.set (p % ring.max) none) ring.max p
            (ring.delta + ring.length - 1 - p)).set
          ((ring.delta + ring.length - 1) % ring.max) none) ∧
    ((_vte_ring_remove ring p f).cached_item, (_vte_ring_remove ring p f).cached_data)
      = if (p : ℤ) ≤ ring.cached_item then ((-1 : ℤ), (none : Option ℕ))
        else (ring.cached_item, ring.cached_data) := by
  unfold _vte_ring_remove _vte_ring_set_cache
  split_ifs <;> simp_all

theorem ring_dataOk_insert (ring : VteRing) (p : ℕ) (d : Option ℕ)
    (hD : ringDataOk ring) : ringDataOk (_vte_ring_insert ring p d) := by
  obtain ⟨hm2, hlen, harr⟩ := hD
  by_cases hg : p < ring.delta ∨ ring.delta + ring.length < p ∨ d.isNone
  · rw [ring_insert_noop ring p d hg]; exact ⟨hm2, hlen, harr⟩
  · have hd : d.isSome := by
      cases d
      · simp at hg
      · rfl
    by_cases hp : p = ring.delta + ring.length
    · obtain ⟨c1, c2, c3, c4⟩ := ring_append_char ring d hd
      subst hp
      unfold _vte_ring_append _vte_ring_next at c1 c2 c3 c4
      refine ⟨by rw [c1]; exact hm2, ?_, by rw [c2, c1]; simp [harr]⟩
      rw [c4, c1]; split_ifs <;> omega
    · obtain ⟨c1, c2, c3, c4, c5⟩ := ring_insert_mid_char ring p d hd (by omega) (by omega)
      refine ⟨by rw [c1]; exact hm2, by rw [c3, c1]; omega, ?_⟩
      rw [c4, c1]
      simp [ringShiftUp_length, harr]

theorem ring_dataOk_remove (ring : VteRing) (p : ℕ) (f : Bool)
    (hD : ringDataOk ring) : ringDataOk (_vte_ring_remove ring p f) := by
  obtain ⟨hm2, hlen, harr⟩ := hD
  obtain ⟨c1, c2, c3, c4, c5⟩ := ring_remove_char ring p f
  refine ⟨by rw [c1]; exact hm2, by rw [c3, c1]; omega, ?_⟩
  rw [c4, c1]
  simp [ringShiftDown_length, harr]

theorem ring_cacheOk_insert (ring : VteRing) (p : ℕ) (d : Option ℕ)
    (hD : ringDataOk ring) (hC : ringCacheOk ring) :
    ringCacheOk (_vte_ring_insert ring p d) := by
  obtain ⟨hm2, hlen, harr⟩ := hD
  by_cases hg : p < ring.delta ∨ ring.delta + ring.length < p ∨ d.isNone
  · rw [ring_insert_noop ring p d hg]; exact hC
  · have hd : d.isSome := by
      cases d
      · simp at hg
      · rfl
    by_cases hp : p = ring.delta + ring.length
    · obtain ⟨c1, c2, c3, c4⟩ := ring_append_char ring d hd
      have c5 := ring_append_cache_char ring d hd
      subst hp
      unfold _vte_ring_append _vte_ring_next at c1 c2 c3 c4 c5
      by_cases hcl : ring.length = ring.max ∧ ring.cached_item < ((ring.delta + 1 : ℕ) : ℤ)
      · rw [if_pos hcl] at c5
        simp only [Prod.mk.injEq] at c5
        left; exact c5.1
      · rw [if_neg hcl] at c5
        simp only [Prod.mk.injEq] at c5
        obtain ⟨e1, e2⟩ := c5
        rcases hC with hneg | ⟨hc0, hc1, hc2, hc3⟩
        · left; rw [e1]; exact hneg
        · right
          by_cases hfull : ring.length = ring.max
          · have hge : ((ring.delta + 1 : ℕ) : ℤ) ≤ ring.cached_item := by
              rcases not_and_or.mp hcl with h | h
              · exact absurd hfull h
              · omega
            refine ⟨by rw [e1]; exact hc0, ?_, ?_, ?_⟩
            · rw [e1, c3, if_pos hfull]; omega
            · rw [e1, c3, if_pos hfull, c4, if_pos hfull]; omega
            · rw [e1, e2, c2, c1,
                ringGetD_set_ne _ _ (Ne.symm (ringMod_ne (by omega) (by omega)))]
              exact hc3
          · refine ⟨by rw [e1]; exact hc0, ?_, ?_, ?_⟩
            · rw [e1, c3, if_neg hfull]; omega
            · rw [e1, c3, if_neg hfull, c4, if_neg hfull]; omega
            · rw [e1, e2, c2, c1,
                ringGetD_set_ne _ _ (Ne.symm (ringMod_ne (by omega) (by omega)))]
              exact hc3
    · obtain ⟨c1, c2, c3, c4, c5⟩ := ring_insert_mid_char ring p d hd (by omega) (by omega)
      by_cases hcl : (p : ℤ) ≤ ring.cached_item
      · rw [if_pos hcl] at c5
        simp only [Prod.mk.injEq] at c5
        left; exact c5.1
      · rw [if_neg hcl] at c5
        simp only [Prod.mk.injEq] at c5
        obtain ⟨e1, e2⟩ := c5
        rcases hC with hneg | ⟨hc0, hc1, hc2, hc3⟩
        · left; rw [e1]; exact hneg
        · right
          have htp : ring.cached_item.toNat < p := by omega
          have hminge : ring.length ≤ (ring.length + 1) ⊓ ring.max :=
            le_min (by omega) hlen
          refine ⟨by rw [e1]; exact hc0, by rw [e1, c2]; omega,
            by rw [e1, c2, c3]; omega, ?_⟩
          rw [e1, e2, c4, c1,
            ringGetD_set_ne _ _ (Ne.symm (ringMod_ne (by omega) (by omega))),
            ringShiftUp_getD_ne _ _ _ _ _ ?hsh]
          · exact hc3
          case hsh =>
            intro j hj
            split_ifs at hj with hfull
            · exact Ne.symm (ringMod_ne (by omega) (by omega))
            · exact Ne.symm (ringMod_ne (by omega) (by omega))

theorem ring_cacheOk_remove (ring : VteRing) (p : ℕ) (f : Bool)
    (hD : ringDataOk ring) (hC : ringCacheOk ring)
    (hcont : _vte_ring_contains ring p) :
    ringCacheOk (_vte_ring_remove ring p f) := by
  obtain ⟨hm2, hlen, harr⟩ := hD
  obtain ⟨hp1, hp2⟩ := hcont
  obtain ⟨c1, c2, c3, c4, c5⟩ := ring_remove_char ring p f
  by_cases hcl : (p : ℤ) ≤ ring.cached_item
  · rw [if_pos hcl] at c5
    simp only [Prod.mk.injEq] at c5
    left; exact c5.1
  · rw [if_neg hcl] at c5
    simp only [Prod.mk.injEq] at c5
    obtain ⟨e1, e2⟩ := c5
    rcases hC with hneg | ⟨hc0, hc1, hc2, hc3⟩
    · left; rw [e1]; exact hneg
    · right
      have htp : ring.cached_item.toNat < p := by omega
      refine ⟨by rw [e1]; exact hc0, by rw [e1, c2]; omega,
        by rw [e1, c2, c3]; omega, ?_⟩
      rw [e1, e2, c4, c1,
        ringGetD_set_ne _ _ (Ne.symm (ringMod_ne (by omega) (by omega))),
        ringShiftDown_getD_ne _ _ _ _ _ ?hsd,
        ringGetD_set_ne _ _ (Ne.symm (ringMod_ne (by omega) (by omega)))]
      · exact hc3
      case hsd =>
        intro j hj
        exact Ne.symm (ringMod_ne (by omega) (by omega))

theorem ring_cacheOk_setCache (ring : VteRing) (p : ℤ) (d : Option ℕ)
    (h : ringOpOk ring (.setCache p d)) :
    ringCacheOk (_vte_ring_set_cache ring p d) := by
  rcases h with h | ⟨h0, h1, h2, h3⟩
  · left; rw [h]; rfl
  · right; exact ⟨h0, h1, h2, h3⟩

theorem ring_removeSeq_ok (count : ℕ) : ∀ (ring : VteRing) (position : ℕ),
    position + count = ring.delta + ring.length → ring.delta ≤ position →
    ringDataOk ring → ringCacheOk ring →
    ringDataOk (ringRemoveSeq ring position count) ∧
    ringCacheOk (ringRemoveSeq ring position count) := by
  induction count with
  | zero => intro ring position h1 h2 hD hC; exact ⟨hD, hC⟩
  | succ k ih =>
      intro ring position h1 h2 hD hC
      rw [ringRemoveSeq]
      obtain ⟨c1, c2, c3, _, _⟩ := ring_remove_char ring (position + k) false
      exact ih _ _ (by rw [c2, c3]; omega) (by rw [c2]; omega)
        (ring_dataOk_remove _ _ _ hD)
        (ring_cacheOk_remove _ _ _ hD hC ⟨by omega, by omega⟩)

theorem ring_appendAll_ok (L : List (Option ℕ)) : ∀ (ring : VteRing),
    ringDataOk ring → ringCacheOk ring →
    ringDataOk (ringAppendAll ring L) ∧ ringCacheOk (ringAppendAll ring L) := by
  induction L with
  | nil => intro ring hD hC; exact ⟨hD, hC⟩
  | cons d T ih =>
      intro ring hD hC
      rw [ringAppendAll_cons]
      exact ih _ (ring_dataOk_insert ring _ d hD) (ring_cacheOk_insert ring _ d hD hC)

theorem ring_insertPreserve_eq (ring : VteRing) (p : ℕ) (d : Option ℕ)
    (h : ¬ _vte_ring_next ring < p) :
    _vte_ring_insert_preserve ring p d =
      (let ring1 :=
        if (p : ℤ) ≤ ring.cached_item then _vte_ring_set_cache ring (-1) none else ring
      ringAppendAll (ringRemoveSeq ring1 p (_vte_ring_next ring1 - p))
        (d :: (List.range (_vte_ring_next ring1 - p)).map
          fun j => _vte_ring_index ring1 (p + j))) := by
  unfold _vte_ring_insert_preserve ringAppendAll
  rw [if_neg h]
  rfl

theorem ring_insertPreserve_ok (ring : VteRing) (p : ℕ) (d : Option ℕ)
    (hD : ringDataOk ring) (hC : ringCacheOk ring) (hdp : ring.delta ≤ p) :
    ringDataOk (_vte_ring_insert_preserve ring p d) ∧
    ringCacheOk (_vte_ring_insert_preserve ring p d) := by
  by_cases hg : _vte_ring_next ring < p
  · unfold _vte_ring_insert_preserve
    rw [if_pos hg]; exact ⟨hD, hC⟩
  · rw [ring_insertPreserve_eq ring p d hg]
    have hfacts : ∀ ring1 : VteRing, ringDataOk ring1 → ringCacheOk ring1 →
        ring1.delta = ring.delta → ring1.length = ring.length →
        ringDataOk (ringAppendAll (ringRemoveSeq ring1 p (_vte_ring_next ring1 - p))
          (d :: (List.range (_vte_ring_next ring1 - p)).map
            fun j => _vte_ring_index ring1 (p + j))) ∧
        ringCacheOk (ringAppendAll (ringRemoveSeq ring1 p (_vte_ring_next ring1 - p))
          (d :: (List.range (_vte_ring_next ring1 - p)).map
            fun j => _vte_ring_index ring1 (p + j))) := by
      intro ring1 hD1 hC1 he1 he2
      have hnext1 : _vte_ring_next ring1 = ring.delta + ring.length := by
        unfold _vte_ring_next; rw [he1, he2]
      obtain ⟨hD2, hC2⟩ := ring_removeSeq_ok (_vte_ring_next ring1 - p) ring1 p
        (by unfold _vte_ring_next at *; omega)
        (by omega) hD1 hC1
      exact ring_appendAll_ok _ _ hD2 hC2
    dsimp only
    split_ifs with hcl
    · exact hfacts _ ⟨hD.1, hD.2.1, hD.2.2⟩ (Or.inl rfl) rfl rfl
    · exact hfacts _ hD hC rfl rfl

theorem ringGetD_map_range (f : ℕ → Option ℕ) (count j : ℕ) (h : j < count) :
    ((List.range count).map f).getD j none = f j := by
  simp [List.getD, List.getElem?_map, List.getElem?_range h]

theorem ring_index_miss (ring1 : VteRing) (q : ℕ) (h : ring1.cached_item < (q : ℤ)) :
    _vte_ring_index ring1 q = ring1.array.getD (q % ring1.max) none := by
  unfold _vte_ring_index
  rw [if_neg (by omega)]

theorem ring_claim_C7_amended_aux (ring ring1 : VteRing) (position x : ℕ)
    (hD : ringDataOk ring) (hC : ringCacheOk ring) (hS : ringSlotsOk ring)
    (hdp : ring.delta ≤ position) (hpn : position ≤ _vte_ring_next ring)
    (e1 : ring1.max = ring.max) (e2 : ring1.delta = ring.delta)
    (e3 : ring1.length = ring.length) (e4 : ring1.array = ring.array)
    (hD1 : ringDataOk ring1) (hC1 : ringCacheOk ring1)
    (hci : ring1.cached_item < (position : ℤ)) :
    (ringAppendAll (ringRemoveSeq ring1 position (_vte_ring_next ring1 - position))
        (some x :: (List.range (_vte_ring_next ring1 - position)).map
          fun j => _vte_ring_index ring1 (position + j))).delta
      = Nat.max ring.delta (_vte_ring_next ring + 1 - ring.max) ∧
    _vte_ring_next (ringAppendAll (ringRemoveSeq ring1 position (_vte_ring_next ring1 - position))
        (some x :: (List.range (_vte_ring_next ring1 - position)).map
          fun j => _vte_ring_index ring1 (position + j)))
      = _vte_ring_next ring + 1 ∧
    ∀ p, (ringAppendAll (ringRemoveSeq ring1 position (_vte_ring_next ring1 - position))
        (some x :: (List.range (_vte_ring_next ring1 - position)).map
          fun j => _vte_ring_index ring1 (position + j))).delta ≤ p →
      p < _vte_ring_next ring + 1 →
      _vte_ring_index (ringAppendAll (ringRemoveSeq ring1 position (_vte_ring_next ring1 - position))
          (some x :: (List.range (_vte_ring_next ring1 - position)).map
            fun j => _vte_ring_index ring1 (position + j))) p
        = if p < position then _vte_ring_index ring p
          else if p = position then some x
          else _vte_ring_index ring (p - 1) := by
  obtain ⟨hm2, hlen, harr⟩ := hD
  have hnext1 : _vte_ring_next ring1 = _vte_ring_next ring := by
    unfold _vte_ring_next; rw [e2, e3]
  have hnext : _vte_ring_next ring = ring.delta + ring.length := rfl
  set count := _vte_ring_next ring1 - position with hcount
  have hcount2 : position + count = ring.delta + ring.length := by
    rw [hcount, hnext1, hnext]; omega
  have hcountlen : count ≤ ring.length := by omega
  -- temporary reads are plain array reads
  have htmp : ∀ j, j < count →
      _vte_ring_index ring1 (position + j) = ring.array.getD ((position + j) % ring.max) none := by
    intro j hj
    rw [ring_index_miss ring1 (position + j) (by omega), e4, e1]
  have htmpsome : ∀ o ∈ (List.range count).map fun j => _vte_ring_index ring1 (position + j),
      o.isSome := by
    intro o ho
    simp only [List.mem_map, List.mem_range] at ho
    obtain ⟨j, hj, hv⟩ := ho
    rw [← hv, htmp j hj]
    have := hS (position + j - ring.delta) (by omega)
    have harg : ring.delta + (position + j - ring.delta) = position + j := by omega
    rw [harg] at this
    exact this
  -- the removal phase
  obtain ⟨r1, r2, r3, r4, r5⟩ := ringRemoveSeq_char count ring1 position
    (by rw [e2, e3]; exact hcount2) (by rw [e2]; omega)
  set ringB := ringRemoveSeq ring1 position count with hringB
  -- the append phase
  obtain ⟨a1, a2, a3, a4, a5⟩ := ringAppendAll_char
    (some x :: (List.range count).map fun j => _vte_ring_index ring1 (position + j)) ringB
    (by
      intro o ho
      rcases List.mem_cons.mp ho with h | h
      · rw [h]; rfl
      · exact htmpsome o h)
    (by rw [r3, r1, e3, e1]; omega)
    (by rw [r4, r1, e4, e1, harr])
    (by rw [r1, e1]; omega)
  rw [r1, e1] at a1 a2 a3 a5
  rw [r2, e2] at a3 a4 a5
  rw [r3, e3] at a3 a4 a5
  simp only [List.length_cons, List.length_map, List.length_range] at a3 a4 a5
  have hmaxf : Nat.max ring.delta (_vte_ring_next ring + 1 - ring.max)
      = ring.delta + (ring.length + 1 - ring.max) := by
    rw [hnext]
    rcases le_total ring.delta (ring.delta + ring.length + 1 - ring.max) with hle | hle
    · have h4 : Nat.max ring.delta (ring.delta + ring.length + 1 - ring.max)
          = ring.delta + ring.length + 1 - ring.max := Nat.max_eq_right hle
      rw [h4]; omega
    · have h4 : Nat.max ring.delta (ring.delta + ring.length + 1 - ring.max)
          = ring.delta := Nat.max_eq_left hle
      rw [h4]; omega
  have hdeltaf : (ringAppendAll ringB
      (some x :: (List.range count).map fun j => _vte_ring_index ring1 (position + j))).delta
      = ring.delta + (ring.length + 1 - ring.max) := by
    rw [a3]; omega
  -- cache validity of the final ring
  obtain ⟨hDB, hCB⟩ := ring_removeSeq_ok count ring1 position
    (by rw [e2, e3]; exact hcount2) (by rw [e2]; omega) hD1 hC1
  obtain ⟨hDF, hCF⟩ := ring_appendAll_ok
    (some x :: (List.range count).map fun j => _vte_ring_index ring1 (position + j))
    ringB hDB hCB
  refine ⟨by rw [hdeltaf, hmaxf], ?_, ?_⟩
  · show (ringAppendAll ringB
        (some x :: (List.range count).map fun j => _vte_ring_index ring1 (position + j))).delta
      + (ringAppendAll ringB
        (some x :: (List.range count).map fun j => _vte_ring_index ring1 (position + j))).length
      = _vte_ring_next ring + 1
    rw [a4, hnext]
    omega
  intro p hp1 hp2
  rw [hnext] at hp2
  have hp1w : ring.delta + (ring.length + 1 - ring.max) ≤ p := by rw [← hdeltaf]; exact hp1
  have hsum : (ringAppendAll ringB
      (some x :: (List.range count).map fun j => _vte_ring_index ring1 (position + j))).delta
      + (ringAppendAll ringB
      (some x :: (List.range count).map fun j => _vte_ring_index ring1 (position + j))).length
      = ring.delta + ring.length + 1 := by rw [a4]; omega
  rw [ring_index_eq_of_cacheOk _ hCF p hp1 (by omega)]
  have hslot := a5 p hp1 (by omega)
  rw [a1, hslot]
  by_cases hplt : p < position
  · rw [if_pos (by omega : p < ring.delta + (ring.length - count)), if_pos hplt]
    rw [r5 (p % ring.max) ?hunt, e4]
    · rw [ring_index_eq_of_cacheOk ring hC p (by omega) (by omega)]
    case hunt =>
      intro k hk
      rw [e1]
      exact Ne.symm (ringMod_ne (by omega) (by omega))
  · by_cases hpeq : p = position
    · rw [if_neg (by omega : ¬ p < ring.delta + (ring.length - count)),
        if_neg hplt, if_pos hpeq]
      have : p - (ring.delta + (ring.length - count)) = 0 := by omega
      rw [this, List.getD_cons_zero]
    · rw [if_neg (by omega : ¬ p < ring.delta + (ring.length - count)),
        if_neg hplt, if_neg hpeq]
      have hk : p - (ring.delta + (ring.length - count)) = (p - position - 1) + 1 := by omega
      rw [hk, List.getD_cons_succ,
        ringGetD_map_range _ count (p - position - 1) (by omega),
        htmp (p - position - 1) (by omega)]
      have harg : position + (p - position - 1) = p - 1 := by omega
      rw [harg, ring_index_eq_of_cacheOk ring hC (p - 1) (by omega) (by omega)]

/-- Claim C7 (amended): for every well-cached ring and every position in
`[delta + 1, next]` (the source crashes below `delta` and rejects above
`next`), after `insert_preserve(pos, x)` the row read at `pos` is `x` and
the rows read at `(pos, next]` are the old rows of `[pos, next)` shifted
up by one, with the bottom of the live window evicted when the ring was
full; rows of `[delta, pos)` whose slots are not re-used keep their
values.  The ring is spec-modelled in part: `ring.h` is not under `src/`. -/
theorem ring_claim_C7 (ring : VteRing) (position x : ℕ)
    (hD : ringDataOk ring) (hC : ringCacheOk ring) (hS : ringSlotsOk ring)
    (hdp : ring.delta ≤ position) (hpn : position ≤ _vte_ring_next ring) :
    (_vte_ring_insert_preserve ring position (some x)).delta
      = Nat.max ring.delta (_vte_ring_next ring + 1 - ring.max) ∧
    _vte_ring_next (_vte_ring_insert_preserve ring position (some x))
      = _vte_ring_next ring + 1 ∧
    ∀ p, (_vte_ring_insert_preserve ring position (some x)).delta ≤ p →
      p < _vte_ring_next ring + 1 →
      _vte_ring_index (_vte_ring_insert_preserve ring position (some x)) p
        = if p < position then _vte_ring_index ring p
          else if p = position then some x
          else _vte_ring_index ring (p - 1) := by
  rw [ring_insertPreserve_eq ring position (some x) (not_lt.mpr hpn)]
  dsimp only
  split_ifs with hcl
  · exact ring_claim_C7_amended_aux ring _ position x hD hC hS hdp hpn rfl rfl rfl rfl
      ⟨hD.1, hD.2.1, hD.2.2⟩ (Or.inl rfl) (by show (-1 : ℤ) < (position : ℤ); omega)
  · exact ring_claim_C7_amended_aux ring ring position x hD hC hS hdp hpn rfl rfl rfl rfl
      hD hC (by omega)

theorem ring_ip_read (r : VteRing) (p j : ℕ) :
    _vte_ring_index (if (p : ℤ) ≤ r.cached_item then _vte_ring_set_cache r (-1) none else r)
        (p + j)
      = r.array.getD ((p + j) % r.max) none := by
  split_ifs with hcl
  · rw [ring_index_miss _ _ (by show (-1 : ℤ) < ((p + j : ℕ) : ℤ); omega)]
    rfl
  · rw [ring_index_miss _ _ (by omega)]

theorem ring_insert_data (r r2 : VteRing) (h1 : r.max = r2.max) (h2 : r.delta = r2.delta)
    (h3 : r.length = r2.length) (h4 : r.array = r2.array) (p : ℕ) (d : Option ℕ) :
    (_vte_ring_insert r p d).max = (_vte_ring_insert r2 p d).max ∧
    (_vte_ring_insert r p d).delta = (_vte_ring_insert r2 p d).delta ∧
    (_vte_ring_insert r p d).length = (_vte_ring_insert r2 p d).length ∧
    (_vte_ring_insert r p d).array = (_vte_ring_insert r2 p d).array := by
  by_cases hg : p < r.delta ∨ r.delta + r.length < p ∨ d.isNone
  · rw [ring_insert_noop r p d hg]
    rw [h2, h3] at hg
    rw [ring_insert_noop r2 p d hg]
    exact ⟨h1, h2, h3, h4⟩
  · have hd : d.isSome := by
      cases d
      · simp at hg
      · rfl
    by_cases hp : p = r.delta + r.length
    · have hr : _vte_ring_insert r p d = _vte_ring_append r d := by
        rw [hp]; rfl
      have hr2 : _vte_ring_insert r2 p d = _vte_ring_append r2 d := by
        rw [hp, h2, h3]; rfl
      obtain ⟨c1, c2, c3, c4⟩ := ring_append_char r d hd
      obtain ⟨e1, e2, e3, e4⟩ := ring_append_char r2 d hd
      rw [hr, hr2, c1, e1, c2, e2, c3, e3, c4, e4, h1, h2, h3, h4]
      exact ⟨rfl, rfl, rfl, rfl⟩
    · obtain ⟨c1, c2, c3, c4, _⟩ := ring_insert_mid_char r p d hd (by omega) (by omega)
      obtain ⟨e1, e2, e3, e4, _⟩ := ring_insert_mid_char r2 p d hd (by omega) (by omega)
      rw [c1, e1, c2, e2, c3, e3, c4, e4, h1, h2, h3, h4]
      exact ⟨rfl, rfl, rfl, rfl⟩

theorem ring_remove_data (r r2 : VteRing) (h1 : r.max = r2.max) (h2 : r.delta = r2.delta)
    (h3 : r.length = r2.length) (h4 : r.array = r2.array) (p : ℕ) (f f2 : Bool) :
    (_vte_ring_remove r p f).max = (_vte_ring_remove r2 p f2).max ∧
    (_vte_ring_remove r p f).delta = (_vte_ring_remove r2 p f2).delta ∧
    (_vte_ring_remove r p f).length = (_vte_ring_remove r2 p f2).length ∧
    (_vte_ring_remove r p f).array = (_vte_ring_remove r2 p f2).array := by
  obtain ⟨c1, c2, c3, c4, _⟩ := ring_remove_char r p f
  obtain ⟨e1, e2, e3, e4, _⟩ := ring_remove_char r2 p f2
  rw [c1, e1, c2, e2, c3, e3, c4, e4, h1, h2, h3, h4]
  exact ⟨rfl, rfl, rfl, rfl⟩

theorem ring_removeSeq_data (count : ℕ) : ∀ (r r2 : VteRing) (position : ℕ),
    r.max = r2.max → r.delta = r2.delta → r.length = r2.length → r.array = r2.array →
    (ringRemoveSeq r position count).max = (ringRemoveSeq r2 position count).max ∧
    (ringRemoveSeq r position count).delta = (ringRemoveSeq r2 position count).delta ∧
    (ringRemoveSeq r position count).length = (ringRemoveSeq r2 position count).length ∧
    (ringRemoveSeq r position count).array = (ringRemoveSeq r2 position count).array := by
  induction count with
  | zero => intro r r2 position h1 h2 h3 h4; exact ⟨h1, h2, h3, h4⟩
  | succ k ih =>
      intro r r2 position h1 h2 h3 h4
      rw [ringRemoveSeq, ringRemoveSeq]
      obtain ⟨c1, c2, c3, c4⟩ := ring_remove_data r r2 h1 h2 h3 h4 (position + k) false false
      exact ih _ _ position c1 c2 c3 c4

theorem ring_appendAll_data (L : List (Option ℕ)) : ∀ (r r2 : VteRing),
    r.max = r2.max → r.delta = r2.delta → r.length = r2.length → r.array = r2.array →
    (ringAppendAll r L).max = (ringAppendAll r2 L).max ∧
    (ringAppendAll r L).delta = (ringAppendAll r2 L).delta ∧
    (ringAppendAll r L).length = (ringAppendAll r2 L).length ∧
    (ringAppendAll r L).array = (ringAppendAll r2 L).array := by
  induction L with
  | nil => intro r r2 h1 h2 h3 h4; exact ⟨h1, h2, h3, h4⟩
  | cons d T ih =>
      intro r r2 h1 h2 h3 h4
      rw [ringAppendAll_cons, ringAppendAll_cons]
      have hnn : _vte_ring_next r = _vte_ring_next r2 := by
        unfold _vte_ring_next; rw [h2, h3]
      have happ : _vte_ring_append r d = _vte_ring_insert r (_vte_ring_next r) d := rfl
      have happ2 : _vte_ring_append r2 d = _vte_ring_insert r2 (_vte_ring_next r) d := by
        rw [hnn]; rfl
      obtain ⟨c1, c2, c3, c4⟩ := ring_insert_data r r2 h1 h2 h3 h4 (_vte_ring_next r) d
      rw [happ, happ2] at *
      exact ih _ _ c1 c2 c3 c4

theorem ring_setCacheIf_fields (r : VteRing) (p : ℕ) :
    (if (p : ℤ) ≤ r.cached_item then _vte_ring_set_cache r (-1) none else r).max = r.max ∧
    (if (p : ℤ) ≤ r.cached_item then _vte_ring_set_cache r (-1) none else r).delta = r.delta ∧
    (if (p : ℤ) ≤ r.cached_item then _vte_ring_set_cache r (-1) none else r).length = r.length ∧
    (if (p : ℤ) ≤ r.cached_item then _vte_ring_set_cache r (-1) none else r).array = r.array := by
  split_ifs <;> exact ⟨rfl, rfl, rfl, rfl⟩

theorem ring_insertPreserve_data (r r2 : VteRing) (h1 : r.max = r2.max)
    (h2 : r.delta = r2.delta) (h3 : r.length = r2.length) (h4 : r.array = r2.array)
    (p : ℕ) (d : Option ℕ) :
    (_vte_ring_insert_preserve r p d).max = (_vte_ring_insert_preserve r2 p d).max ∧
    (_vte_ring_insert_preserve r p d).delta = (_vte_ring_insert_preserve r2 p d).delta ∧
    (_vte_ring_insert_preserve r p d).length = (_vte_ring_insert_preserve r2 p d).length ∧
    (_vte_ring_insert_preserve r p d).array = (_vte_ring_insert_preserve r2 p d).array := by
  have hnn : _vte_ring_next r = _vte_ring_next r2 := by
    unfold _vte_ring_next; rw [h2, h3]
  by_cases hg : _vte_ring_next r < p
  · unfold _vte_ring_insert_preserve
    rw [if_pos hg, if_pos (by rw [← hnn]; exact hg)]
    exact ⟨h1, h2, h3, h4⟩
  · rw [ring_insertPreserve_eq r p d hg, ring_insertPreserve_eq r2 p d (by rw [← hnn]; exact hg)]
    dsimp only
    obtain ⟨f1, f2, f3, f4⟩ := ring_setCacheIf_fields r p
    obtain ⟨g1, g2, g3, g4⟩ := ring_setCacheIf_fields r2 p
    have hn1 : _vte_ring_next (if (p : ℤ) ≤ r.cached_item then
        _vte_ring_set_cache r (-1) none else r) = _vte_ring_next r := by
      unfold _vte_ring_next; rw [f2, f3]
    have hn2 : _vte_ring_next (if (p : ℤ) ≤ r2.cached_item then
        _vte_ring_set_cache r2 (-1) none else r2) = _vte_ring_next r := by
      unfold _vte_ring_next at hnn ⊢; rw [g2, g3]; omega
    rw [show (_vte_ring_next (if (p : ℤ) ≤ r2.cached_item then
        _vte_ring_set_cache r2 (-1) none else r2) - p)
      = (_vte_ring_next (if (p : ℤ) ≤ r.cached_item then
        _vte_ring_set_cache r (-1) none else r) - p) from by rw [hn1, hn2]]
    have htmpeq : ((List.range (_vte_ring_next (if (p : ℤ) ≤ r.cached_item then
          _vte_ring_set_cache r (-1) none else r) - p)).map
        fun j => _vte_ring_index (if (p : ℤ) ≤ r.cached_item then
          _vte_ring_set_cache r (-1) none else r) (p + j))
        = ((List.range (_vte_ring_next (if (p : ℤ) ≤ r.cached_item then
          _vte_ring_set_cache r (-1) none else r) - p)).map
        fun j => _vte_ring_index (if (p : ℤ) ≤ r2.cached_item then
          _vte_ring_set_cache r2 (-1) none else r2) (p + j)) := by
      apply List.map_congr_left
      intro j _
      rw [ring_ip_read, ring_ip_read, h4, h1]
    rw [htmpeq]
    obtain ⟨s1, s2, s3, s4⟩ := ring_removeSeq_data
      (_vte_ring_next (if (p : ℤ) ≤ r.cached_item then
        _vte_ring_set_cache r (-1) none else r) - p)
      (if (p : ℤ) ≤ r.cached_item then _vte_ring_set_cache r (-1) none else r)
      (if (p : ℤ) ≤ r2.cached_item then _vte_ring_set_cache r2 (-1) none else r2)
      p (by rw [f1, g1, h1]) (by rw [f2, g2, h2]) (by rw [f3, g3, h3]) (by rw [f4, g4, h4])
    exact ring_appendAll_data _ _ _ s1 s2 s3 s4

theorem ring_exec_data (r rn : VteRing) (op : RingOp) (h1 : r.max = rn.max)
    (h2 : r.delta = rn.delta) (h3 : r.length = rn.length) (h4 : r.array = rn.array) :
    (ringExec r op).max = (ringExecNC rn op).max ∧
    (ringExec r op).delta = (ringExecNC rn op).delta ∧
    (ringExec r op).length = (ringExecNC rn op).length ∧
    (ringExec r op).array = (ringExecNC rn op).array := by
  cases op with
  | insert p d => exact ring_insert_data r rn h1 h2 h3 h4 p (some d)
  | insertPreserve p d => exact ring_insertPreserve_data r rn h1 h2 h3 h4 p (some d)
  | remove p f => exact ring_remove_data r rn h1 h2 h3 h4 p f f
  | append d =>
      show (_vte_ring_insert r (_vte_ring_next r) (some d)).max
          = (_vte_ring_insert rn (_vte_ring_next rn) (some d)).max ∧
        (_vte_ring_insert r (_vte_ring_next r) (some d)).delta
          = (_vte_ring_insert rn (_vte_ring_next rn) (some d)).delta ∧
        (_vte_ring_insert r (_vte_ring_next r) (some d)).length
          = (_vte_ring_insert rn (_vte_ring_next rn) (some d)).length ∧
        (_vte_ring_insert r (_vte_ring_next r) (some d)).array
          = (_vte_ring_insert rn (_vte_ring_next rn) (some d)).array
      rw [show _vte_ring_next rn = _vte_ring_next r from by unfold _vte_ring_next; rw [h2, h3]]
      exact ring_insert_data r rn h1 h2 h3 h4 (_vte_ring_next r) (some d)
  | setCache p d => exact ⟨h1, h2, h3, h4⟩

theorem ring_exec_ok (r : VteRing) (op : RingOp) (hD : ringDataOk r)
    (hC : ringCacheOk r) (hop : ringOpOk r op) :
    ringDataOk (ringExec r op) ∧ ringCacheOk (ringExec r op) := by
  cases op with
  | insert p d =>
      exact ⟨ring_dataOk_insert r p (some d) hD, ring_cacheOk_insert r p (some d) hD hC⟩
  | insertPreserve p d =>
      obtain ⟨a, b⟩ := ring_insertPreserve_ok r p (some d) hD hC hop
      exact ⟨a, b⟩
  | remove p f =>
      exact ⟨ring_dataOk_remove r p f hD, ring_cacheOk_remove r p f hD hC hop⟩
  | append d =>
      exact ⟨ring_dataOk_insert r _ (some d) hD, ring_cacheOk_insert r _ (some d) hD hC⟩
  | setCache p d =>
      refine ⟨⟨hD.1, hD.2.1, hD.2.2⟩, ring_cacheOk_setCache r p d hop⟩

theorem ring_insert_cache_neg (r : VteRing) (p : ℕ) (d : Option ℕ)
    (h : r.cached_item = -1) : (_vte_ring_insert r p d).cached_item = -1 := by
  by_cases hg : p < r.delta ∨ r.delta + r.length < p ∨ d.isNone
  · rw [ring_insert_noop r p d hg]; exact h
  · have hd : d.isSome := by
      cases d
      · simp at hg
      · rfl
    by_cases hp : p = r.delta + r.length
    · have hr : _vte_ring_insert r p d = _vte_ring_append r d := by rw [hp]; rfl
      rw [hr]; exact ring_append_cache_neg r d h
    · obtain ⟨_, _, _, _, c5⟩ := ring_insert_mid_char r p d hd (by omega) (by omega)
      split_ifs at c5 <;> simp only [Prod.mk.injEq] at c5
      · exact c5.1
      · rw [c5.1]; exact h

theorem ring_removeSeq_cache_neg (count : ℕ) (r : VteRing) (position : ℕ)
    (h : r.cached_item = -1) :
    (ringRemoveSeq r position count).cached_item = -1 := by
  obtain ⟨a, _⟩ := ringRemoveSeq_cache_keep count r position (by rw [h]; omega)
  rw [a]; exact h

theorem ring_execNC_cache_neg (rn : VteRing) (op : RingOp)
    (h : rn.cached_item = -1) : (ringExecNC rn op).cached_item = -1 := by
  cases op with
  | insert p d => exact ring_insert_cache_neg rn p (some d) h
  | insertPreserve p d =>
      by_cases hg : _vte_ring_next rn < p
      · show (_vte_ring_insert_preserve rn p (some d)).cached_item = -1
        unfold _vte_ring_insert_preserve
        rw [if_pos hg]; exact h
      · show (_vte_ring_insert_preserve rn p (some d)).cached_item = -1
        rw [ring_insertPreserve_eq rn p (some d) hg]
        dsimp only
        rw [if_neg (by rw [h]; omega)]
        exact ringAppendAll_cache_neg _ _
          (ring_removeSeq_cache_neg _ rn p h)
  | remove p f =>
      show (_vte_ring_remove rn p f).cached_item = -1
      obtain ⟨_, _, _, _, c5⟩ := ring_remove_char rn p f
      split_ifs at c5 with hcl <;> simp only [Prod.mk.injEq] at c5
      · exact c5.1
      · rw [c5.1]; exact h
  | append d => exact ring_insert_cache_neg rn _ (some d) h
  | setCache p d => exact h

theorem ring_c8_invariant (ops : List RingOp) : ∀ (r rn : VteRing),
    ringDataOk r → ringCacheOk r → ringOpsOk r ops →
    r.max = rn.max → r.delta = rn.delta → r.length = rn.length → r.array = rn.array →
    rn.cached_item = -1 →
    ringDataOk (ops.foldl ringExec r) ∧ ringCacheOk (ops.foldl ringExec r) ∧
    (ops.foldl ringExec r).max = (ops.foldl ringExecNC rn).max ∧
    (ops.foldl ringExec r).delta = (ops.foldl ringExecNC rn).delta ∧
    (ops.foldl ringExec r).length = (ops.foldl ringExecNC rn).length ∧
    (ops.foldl ringExec r).array = (ops.foldl ringExecNC rn).array ∧
    (ops.foldl ringExecNC rn).cached_item = -1 := by
  induction ops with
  | nil =>
      intro r rn hD hC hops h1 h2 h3 h4 hneg
      exact ⟨hD, hC, h1, h2, h3, h4, hneg⟩
  | cons op rest ih =>
      intro r rn hD hC hops h1 h2 h3 h4 hneg
      obtain ⟨hop, hrest⟩ := hops
      obtain ⟨hD2, hC2⟩ := ring_exec_ok r op hD hC hop
      obtain ⟨e1, e2, e3, e4⟩ := ring_exec_data r rn op h1 h2 h3 h4
      exact ih (ringExec r op) (ringExecNC rn op) hD2 hC2 hrest e1 e2 e3 e4
        (ring_execNC_cache_neg rn op hneg)

/-- Claim C8 (amended): the one-slot cache is observationally transparent
for the mutation sequences the source performs, in which `set_cache` is
called only through `_vte_ring_index` and therefore caches the row just
read: for every sequence of `append`, `insert`, `insert_preserve`,
`remove` and such read-consistent `set_cache` calls run from a fresh
ring, every `index(p)` in the live window agrees with the same sequence
run with `set_cache` ignored.  An arbitrary (wrong-row) `set_cache` can
change what `index` returns, so the unrestricted claim fails. -/
theorem ring_claim_C8 (m : ℕ) (hm : 2 ≤ m) (ops : List RingOp)
    (hops : ringOpsOk (_vte_ring_new m) ops) (p : ℕ)
    (hp : _vte_ring_contains (ops.foldl ringExec (_vte_ring_new m)) p) :
    _vte_ring_index (ops.foldl ringExec (_vte_ring_new m)) p
      = _vte_ring_index (ops.foldl ringExecNC (_vte_ring_new m)) p := by
  obtain ⟨hD, hC, e1, e2, e3, e4, hneg⟩ := ring_c8_invariant ops
    (_vte_ring_new m) (_vte_ring_new m)
    ⟨Nat.le_max_right m 2, Nat.zero_le _, by simp [_vte_ring_new]⟩
    (Or.inl rfl) hops rfl rfl rfl rfl rfl
  obtain ⟨hp1, hp2⟩ := hp
  rw [ring_index_eq_of_cacheOk _ hC p hp1 hp2,
    ring_index_miss _ _ (by rw [hneg]; omega), e1, e4]

theorem ring_claim_C7_counterexample :
    _vte_ring_index
        (_vte_ring_insert_preserve
          ⟨3, 4, 2, [none, some 40, some 50], -1, none⟩ 2 (some 99)) 5
      ≠ _vte_ring_index ⟨3, 4, 2, [none, some 40, some 50], -1, none⟩ 4 := by decide

theorem ring_claim_C7_witness :
    ringDataOk ⟨2, 1, 2, [some 3, some 2], -1, none⟩ ∧
    ringCacheOk ⟨2, 1, 2, [some 3, some 2], -1, none⟩ ∧
    ringSlotsOk ⟨2, 1, 2, [some 3, some 2], -1, none⟩ ∧
    (_vte_ring_insert_preserve ⟨2, 1, 2, [some 3, some 2], -1, none⟩ 2 (some 9)).delta
      = Nat.max 1 (3 + 1 - 2) ∧
    _vte_ring_next
        (_vte_ring_insert_preserve ⟨2, 1, 2, [some 3, some 2], -1, none⟩ 2 (some 9)) = 4 ∧
    _vte_ring_index (_vte_ring_insert_preserve ⟨2, 1, 2, [some 3, some 2], -1, none⟩ 2
        (some 9)) 2 = some 9 := by
  obtain ⟨h1, h2, h3⟩ := ring_claim_C7 ⟨2, 1, 2, [some 3, some 2], -1, none⟩ 2 9
    (by decide) (by decide) (by decide) (by decide) (by decide)
  refine ⟨by decide, by decide, by decide, h1, h2, ?_⟩
  have := h3 2 (by rw [h1]; decide) (by decide)
  rw [this]
  decide

theorem ring_claim_C8_counterexample :
    _vte_ring_index
        (([RingOp.append 7, RingOp.setCache 0 (some 99)]).foldl ringExec (_vte_ring_new 2)) 0
      ≠ _vte_ring_index
        (([RingOp.append 7, RingOp.setCache 0 (some 99)]).foldl ringExecNC (_vte_ring_new 2))
        0 := by decide

theorem ring_claim_C8_witness :
    ringOpsOk (_vte_ring_new 2) [RingOp.append 5, RingOp.setCache 0 (some 5)] ∧
    _vte_ring_contains
      (([RingOp.append 5, RingOp.setCache 0 (some 5)]).foldl ringExec (_vte_ring_new 2)) 0 ∧
    _vte_ring_index
        (([RingOp.append 5, RingOp.setCache 0 (some 5)]).foldl ringExec (_vte_ring_new 2)) 0
      = _vte_ring_index
        (([RingOp.append 5, RingOp.setCache 0 (some 5)]).foldl ringExecNC (_vte_ring_new 2))
        0 :=
  ⟨by decide, by decide,
    ring_claim_C8 2 (by decide) _ (by decide) 0 (by decide)⟩

/-! ## SIXEL decoder: theorems -/

/-- Claim C10: when the image data buffer is null, `sixel_parser_parse`
returns `-1` immediately for every byte sequence and leaves the decoder
state unchanged. -/
theorem sixel_claim_C10 (st : sixel_state_t) (bs : List ℕ)
    (h : st.image.data = none) : sixel_parser_parse st bs = (-1, st) := by
  unfold sixel_parser_parse
  rw [h]
  rfl

theorem sixel_claim_C10_witness :
    (⟨ParseState.PS_DCS, 0, 0, 0, 0, 2, 1, 0, 0, 1, 16, 0, [],
        ⟨1, 1, none, 2, [], false, false⟩⟩ : sixel_state_t).image.data = none ∧
    sixel_parser_parse
        (⟨ParseState.PS_DCS, 0, 0, 0, 0, 2, 1, 0, 0, 1, 16, 0, [],
          ⟨1, 1, none, 2, [], false, false⟩⟩ : sixel_state_t) [0x71, 0x7e]
      = (-1, ⟨ParseState.PS_DCS, 0, 0, 0, 0, 2, 1, 0, 0, 1, 16, 0, [],
          ⟨1, 1, none, 2, [], false, false⟩⟩) :=
  ⟨rfl, sixel_claim_C10 _ _ rfl⟩

theorem sixel_claim_C5_counterexample :
    (sixelStep ⟨ParseState.PS_DECSIXEL, 0, 4085, 0, 0, 2, 1, 0, 0, 1, 16, 0, [],
        ⟨1, 1, some [0], 2, [], false, false⟩⟩ 0x2d 0).1.pos_y ≠ 4085 + 6 := by decide

/-- Claim C5 (amended): in `PS_DECSIXEL`, the byte `-` sets `pos_x` to 0
and advances `pos_y` by 6 exactly when `pos_y < DECSIXEL_HEIGHT_MAX - 11`
(a strict bound, not the claimed `pos_y ≤ DECSIXEL_HEIGHT_MAX - 11`),
and otherwise sets `pos_y` to the sentinel `DECSIXEL_HEIGHT_MAX + 1`. -/
theorem sixel_claim_C5 (st : sixel_state_t) (s : ℤ)
    (h : st.state = ParseState.PS_DECSIXEL) :
    (sixelStep st 0x2d s).1.pos_x = 0 ∧
    (sixelStep st 0x2d s).1.pos_y
      = (if st.pos_y < (DECSIXEL_HEIGHT_MAX : ℤ) - 11 then st.pos_y + 6
         else (DECSIXEL_HEIGHT_MAX : ℤ) + 1) ∧
    (sixelStep st 0x2d s).2.2.1 = true := by
  unfold sixelStep
  rw [h]
  norm_num [DECSIXEL_HEIGHT_MAX]

theorem sixel_claim_C5_witness :
    ((⟨ParseState.PS_DECSIXEL, 3, 12, 0, 0, 2, 1, 0, 0, 1, 16, 0, [],
        ⟨1, 1, some [0], 2, [], false, false⟩⟩ : sixel_state_t).state
      = ParseState.PS_DECSIXEL) ∧
    (sixelStep (⟨ParseState.PS_DECSIXEL, 3, 12, 0, 0, 2, 1, 0, 0, 1, 16, 0, [],
        ⟨1, 1, some [0], 2, [], false, false⟩⟩ : sixel_state_t) 0x2d 0).1.pos_x = 0 ∧
    (sixelStep (⟨ParseState.PS_DECSIXEL, 3, 12, 0, 0, 2, 1, 0, 0, 1, 16, 0, [],
        ⟨1, 1, some [0], 2, [], false, false⟩⟩ : sixel_state_t) 0x2d 0).1.pos_y
      = (if (12 : ℤ) < (DECSIXEL_HEIGHT_MAX : ℤ) - 11 then (12 : ℤ) + 6
         else (DECSIXEL_HEIGHT_MAX : ℤ) + 1) := by
  obtain ⟨h1, h2, h3⟩ := sixel_claim_C5
    (⟨ParseState.PS_DECSIXEL, 3, 12, 0, 0, 2, 1, 0, 0, 1, 16, 0, [],
      ⟨1, 1, some [0], 2, [], false, false⟩⟩ : sixel_state_t) 0 rfl
  exact ⟨rfl, h1, h2⟩

/-- Claim C9: `hls_to_rgb(0, 50, 100)` — hue 0, luminance 50,
saturation 100 — lands in sextant 4 after the `(hue + 240) mod 360`
rotation and returns the packed color `R = 0`, `G = 0`, `B = 255`. -/
theorem sixel_claim_C9 : hls_to_rgb 0 50 100 = SIXEL_RGB 0 0 255 := by
  norm_num [hls_to_rgb, ratTrunc, SIXEL_XRGB, SIXEL_RGB, PALVAL]
  decide

theorem sixel_claim_C6_counterexample :
    (sixelStep ⟨ParseState.PS_DCS, 0, 0, 0, 0, 2, 1, 0, 0, 1, 16, 65535, [],
        ⟨1, 1, some [0], 2, [], false, false⟩⟩ 0x39 0).1.param
      > DECSIXEL_PARAMVALUE_MAX := by decide

/-- Claim C6 (amended): a digit byte is clamped at
`DECSIXEL_PARAMVALUE_MAX` in `PS_DECGRA`, `PS_DECGRI` and `PS_DECGCI`
but accumulates unclamped in `PS_DCS`; the byte `;` pushes `param` onto
`params` only below `DECSIXEL_PARAMS_MAX` and resets `param` in
`PS_DCS`, `PS_DECGRA` and `PS_DECGCI`, while in `PS_DECGRI` a `;` is a
terminator that installs the repeat count and pushes nothing. -/
theorem sixel_claim_C6 (st : sixel_state_t) (b : ℕ) (s : ℤ) :
    ((0x30 ≤ b ∧ b ≤ 0x39) →
      ((st.state = ParseState.PS_DECGRA ∨ st.state = ParseState.PS_DECGRI ∨
          st.state = ParseState.PS_DECGCI) →
        (sixelStep st b s).1.param ≤ DECSIXEL_PARAMVALUE_MAX ∧
        (sixelStep st b s).1.param
          = (if DECSIXEL_PARAMVALUE_MAX < st.param * 10 + ((b - 0x30 : ℕ) : ℤ)
             then DECSIXEL_PARAMVALUE_MAX else st.param * 10 + ((b - 0x30 : ℕ) : ℤ))) ∧
      (st.state = ParseState.PS_DCS →
        (sixelStep st b s).1.param
          = (if st.param < 0 then 0 else st.param) * 10 + ((b - 0x30 : ℕ) : ℤ))) ∧
    (b = 0x3b →
      ((st.state = ParseState.PS_DCS →
        (sixelStep st b s).1.params
          = (if st.params.length < DECSIXEL_PARAMS_MAX
             then st.params ++ [if st.param < 0 then 0 else st.param] else st.params) ∧
        (sixelStep st b s).1.param = 0) ∧
      ((st.state = ParseState.PS_DECGRA ∨ st.state = ParseState.PS_DECGCI) →
        (sixelStep st b s).1.params
          = (if st.params.length < DECSIXEL_PARAMS_MAX then st.params ++ [st.param]
             else st.params) ∧
        (sixelStep st b s).1.param = 0) ∧
      (st.state = ParseState.PS_DECGRI →
        (sixelStep st b s).1.repeat_count = (if st.param = 0 then 1 else st.param) ∧
        (sixelStep st b s).1.params = [] ∧
        (sixelStep st b s).1.param = 0 ∧
        (sixelStep st b s).1.state = ParseState.PS_DECSIXEL ∧
        (sixelStep st b s).2.2.1 = false))) := by
  constructor
  · intro hb
    constructor
    · intro hst
      rcases hst with h | h | h <;>
        · unfold sixelStep
          rw [h]
          dsimp only
          rw [if_neg (by omega), if_pos (by omega)]
          refine ⟨?_, rfl⟩
          dsimp only
          split_ifs <;> unfold DECSIXEL_PARAMVALUE_MAX at * <;> omega
    · intro h
      unfold sixelStep
      rw [h]
      dsimp only
      rw [if_neg (by omega), if_pos (by omega)]
  · intro hb
    refine ⟨?_, ?_, ?_⟩
    · intro h
      unfold sixelStep
      rw [h, hb]
      dsimp only
      rw [if_neg (by omega), if_neg (by omega), if_pos rfl]
      exact ⟨rfl, rfl⟩
    · intro hst
      rcases hst with h | h <;>
        · unfold sixelStep
          rw [h, hb]
          dsimp only
          rw [if_neg (by omega), if_neg (by omega), if_pos rfl]
          exact ⟨rfl, rfl⟩
    · intro h
      unfold sixelStep
      rw [h, hb]
      dsimp only
      rw [if_neg (by omega), if_neg (by omega)]
      exact ⟨rfl, rfl, rfl, rfl, rfl⟩

theorem sixel_claim_C6_witness :
    ((0x30 ≤ 0x35 ∧ 0x35 ≤ 0x39) ∧
      (⟨ParseState.PS_DECGRA, 0, 0, 0, 0, 2, 1, 0, 0, 1, 16, 7, [],
        ⟨1, 1, some [0], 2, [], false, false⟩⟩ : sixel_state_t).state
        = ParseState.PS_DECGRA) ∧
    (sixelStep (⟨ParseState.PS_DECGRA, 0, 0, 0, 0, 2, 1, 0, 0, 1, 16, 7, [],
        ⟨1, 1, some [0], 2, [], false, false⟩⟩ : sixel_state_t) 0x35 0).1.param
      ≤ DECSIXEL_PARAMVALUE_MAX := by
  obtain ⟨hd, _⟩ := sixel_claim_C6
    (⟨ParseState.PS_DECGRA, 0, 0, 0, 0, 2, 1, 0, 0, 1, 16, 7, [],
      ⟨1, 1, some [0], 2, [], false, false⟩⟩ : sixel_state_t) 0x35 0
  exact ⟨⟨⟨by decide, by decide⟩, rfl⟩, ((hd ⟨by decide, by decide⟩).1 (Or.inl rfl)).1⟩


theorem statusOk_ite2 {c : Prop} [inst : Decidable c] {s : ℤ} {a b : sixel_state_t × ℤ}
    (ha : a.2 = s ∨ a.2 = 0) (hb : b.2 = s ∨ b.2 = 0) :
    (if c then a else b).2 = s ∨ (if c then a else b).2 = 0 := by
  split
  · exact ha
  · exact hb

theorem statusOk_ite4 {c : Prop} [inst : Decidable c] {s : ℤ}
    {a b : sixel_state_t × ℤ × Bool × Bool}
    (ha : a.2.1 = s ∨ a.2.1 = 0) (hb : b.2.1 = s ∨ b.2.1 = 0) :
    (if c then a else b).2.1 = s ∨ (if c then a else b).2.1 = 0 := by
  split
  · exact ha
  · exact hb

theorem sixelPaint_status (st : sixel_state_t) (bits : ℕ) (s : ℤ) :
    (sixelPaint st bits s).2 = s ∨ (sixelPaint st bits s).2 = 0 := by
  unfold sixelPaint
  exact statusOk_ite2 (Or.inr rfl) (Or.inl rfl)

theorem sixelStep_status (st : sixel_state_t) (b : ℕ) (s : ℤ) :
    (sixelStep st b s).2.1 = s ∨ (sixelStep st b s).2.1 = 0 := by
  unfold sixelStep
  cases st.state
  case PS_ESC =>
    exact statusOk_ite4 (Or.inl rfl) (statusOk_ite4 (Or.inl rfl) (Or.inl rfl))
  case PS_DCS =>
    exact statusOk_ite4 (Or.inl rfl) (statusOk_ite4 (Or.inl rfl)
      (statusOk_ite4 (Or.inl rfl) (statusOk_ite4 (Or.inl rfl) (Or.inl rfl))))
  case PS_DECSIXEL =>
    refine statusOk_ite4 (Or.inl rfl) (statusOk_ite4 (Or.inl rfl)
      (statusOk_ite4 (Or.inl rfl) (statusOk_ite4 (Or.inl rfl)
        (statusOk_ite4 (Or.inl rfl) (statusOk_ite4 (Or.inl rfl)
          (statusOk_ite4 ?_ (Or.inl rfl)))))))
    exact sixelPaint_status st (b - 0x3f) s
  case PS_DECGRA =>
    refine statusOk_ite4 (Or.inl rfl) (statusOk_ite4 (Or.inl rfl)
      (statusOk_ite4 (Or.inl rfl) ?_))
    exact statusOk_ite2 (Or.inr rfl) (Or.inl rfl)
  case PS_DECGRI =>
    exact statusOk_ite4 (Or.inl rfl) (statusOk_ite4 (Or.inl rfl) (Or.inl rfl))
  case PS_DECGCI =>
    exact statusOk_ite4 (Or.inl rfl) (statusOk_ite4 (Or.inl rfl)
      (statusOk_ite4 (Or.inl rfl) (Or.inl rfl)))

theorem sixelProcessByte_status (st : sixel_state_t) (b : ℕ) (s : ℤ) :
    (sixelProcessByte st b s).2.1 = s ∨ (sixelProcessByte st b s).2.1 = 0 := by
  unfold sixelProcessByte
  dsimp only
  split
  · exact sixelStep_status st b s
  · rcases sixelStep_status (sixelStep st b s).1 b (sixelStep st b s).2.1 with h | h
    · rw [h]; exact sixelStep_status st b s
    · rw [h]; exact Or.inr rfl

theorem sixelParseLoop_escEnds (bs : List ℕ) : ∀ (st : sixel_state_t) (s : ℤ),
    s = -1 ∨ s = 0 →
    (sixelParseLoop st bs s).1
      = (if escEndsNoResize st bs (decide (s = 0)) then -1 else 0) := by
  induction bs with
  | nil =>
      intro st s hs
      rw [sixelParseLoop, escEndsNoResize]
      rfl
  | cons b rest ih =>
      intro st s hs
      rw [sixelParseLoop, escEndsNoResize]
      have hsame : (if decide (s = 0) = true then (0 : ℤ) else -1) = s := by
        rcases hs with h | h <;> simp [h]
      rw [hsame]
      by_cases hstop : (sixelProcessByte st b s).2.2 = true
      · rw [if_pos hstop, if_pos hstop]
        rcases sixelProcessByte_status st b s with h | h
        · rw [h]
          rcases hs with h2 | h2 <;> rw [h2] <;> simp
        · rw [h]; simp
      · rw [if_neg hstop, if_neg hstop]
        have hs2 : (sixelProcessByte st b s).2.1 = -1 ∨ (sixelProcessByte st b s).2.1 = 0 := by
          rcases sixelProcessByte_status st b s with h | h
          · rw [h]; exact hs
          · rw [h]; exact Or.inr rfl
        exact ih (sixelProcessByte st b s).1 (sixelProcessByte st b s).2.1 hs2

/-- Claim C1 (amended): for every decoder state with a non-null image
buffer, `sixel_parser_parse` returns `0` unless the byte loop leaves
through the `PS_ESC` arm (`goto end`) before any resize of the call
succeeded, in which case the skipped `status = 0` store makes it return
the entry value `-1`; allocation never fails in the model. -/
theorem sixel_claim_C1 (st : sixel_state_t) (bs : List ℕ)
    (h : st.image.data.isSome) :
    (sixel_parser_parse st bs).1 = (if escEndsNoResize st bs false then -1 else 0) := by
  unfold sixel_parser_parse
  have hnn : ¬ st.image.data.isNone = true := by
    simp only [Option.isNone_iff_eq_none]
    exact Option.ne_none_iff_isSome.mpr h
  rw [if_neg hnn]
  have hh := sixelParseLoop_escEnds bs st (-1) (Or.inl rfl)
  simpa using hh

theorem sixel_claim_C1_counterexample :
    (sixel_parser_init 0 0 false).2.image.data.isSome = true ∧
    (sixel_parser_parse (sixel_parser_init 0 0 false).2 [0x1b, 0x5c]).1 ≠ 0 := by decide

theorem sixel_claim_C1_witness :
    (sixel_parser_init 0 0 false).2.image.data.isSome = true ∧
    (sixel_parser_parse (sixel_parser_init 0 0 false).2 [0x71]).1
      = (if escEndsNoResize (sixel_parser_init 0 0 false).2 [0x71] false then -1 else 0) :=
  ⟨by decide, sixel_claim_C1 _ _ (by decide)⟩



theorem length_flatMap_four {f : ℕ → List ℕ} (n : ℕ)
    (h : ∀ k, (f k).length = 4) : ((List.range n).flatMap f).length = 4 * n := by
  induction n with
  | zero => rfl
  | succ m ih =>
      rw [List.range_succ, List.flatMap_append, List.length_append, ih]
      simp [h]
      omega

theorem set_default_color_width (im : sixel_image_t) :
    (set_default_color im).2.width = im.width := by
  unfold set_default_color
  dsimp only

theorem set_default_color_height (im : sixel_image_t) :
    (set_default_color im).2.height = im.height := by
  unfold set_default_color
  dsimp only

theorem finalizeDefault_width (im : sixel_image_t) :
    (finalizeDefault im).width = im.width := by
  unfold finalizeDefault
  rw [apply_ite sixel_image_t.width, set_default_color_width, ite_self]

theorem finalizeDefault_height (im : sixel_image_t) :
    (finalizeDefault im).height = im.height := by
  unfold finalizeDefault
  rw [apply_ite sixel_image_t.height, set_default_color_height, ite_self]

theorem image_buffer_resize_width (im : sixel_image_t) (w h : ℕ) :
    (image_buffer_resize im w h).2.width = w := rfl

theorem image_buffer_resize_height (im : sixel_image_t) (w h : ℕ) :
    (image_buffer_resize im w h).2.height = h := rfl

theorem finalizeEmit_length (im : sixel_image_t) :
    (finalizeEmit im).length = 4 * (im.height * im.width) := by
  unfold finalizeEmit
  exact length_flatMap_four _ (fun k => rfl)

/-- Claim C3 (amended): `sixel_parser_finalize` bumps then clamps the
maxima to `max(max_x + 1, attributed_ph)` and `max(max_y + 1,
attributed_pv)`, emits exactly `4 * width * height` BGRA bytes for the
final image, and resizes the image to the clamped maxima exactly when
the image is strictly larger than one of them; when the clamped maxima
exceed the image, the raster keeps the smaller image dimensions, not
`max_x × max_y` as claimed. -/
theorem sixel_claim_C3 (st : sixel_state_t)
    (hx : 0 ≤ st.max_x) (hy : 0 ≤ st.max_y) :
    (sixel_parser_finalize st).2.1.max_x = max (st.max_x + 1) st.attributed_ph ∧
    (sixel_parser_finalize st).2.1.max_y = max (st.max_y + 1) st.attributed_pv ∧
    (sixel_parser_finalize st).2.2.length
      = 4 * ((sixel_parser_finalize st).2.1.image.width
          * (sixel_parser_finalize st).2.1.image.height) ∧
    (((sixel_parser_finalize st).2.1.image.width : ℤ),
     ((sixel_parser_finalize st).2.1.image.height : ℤ))
      = (if (st.image.width : ℤ) > max (st.max_x + 1) st.attributed_ph ∨
            (st.image.height : ℤ) > max (st.max_y + 1) st.attributed_pv then
          (max (st.max_x + 1) st.attributed_ph, max (st.max_y + 1) st.attributed_pv)
        else ((st.image.width : ℤ), (st.image.height : ℤ))) := by
  have hmx : (if st.max_x + 1 < st.attributed_ph then st.attributed_ph else st.max_x + 1)
      = max (st.max_x + 1) st.attributed_ph := by
    rcases lt_or_le (st.max_x + 1) st.attributed_ph with h | h
    · rw [if_pos h]
      exact (max_eq_right h.le).symm
    · rw [if_neg (not_lt.mpr h)]
      exact (max_eq_left h).symm
  have hmy : (if st.max_y + 1 < st.attributed_pv then st.attributed_pv else st.max_y + 1)
      = max (st.max_y + 1) st.attributed_pv := by
    rcases lt_or_le (st.max_y + 1) st.attributed_pv with h | h
    · rw [if_pos h]
      exact (max_eq_right h.le).symm
    · rw [if_neg (not_lt.mpr h)]
      exact (max_eq_left h).symm
  have h1x : (1 : ℤ) ≤ max (st.max_x + 1) st.attributed_ph :=
    le_trans (by omega) (le_max_left _ _)
  have h1y : (1 : ℤ) ≤ max (st.max_y + 1) st.attributed_pv :=
    le_trans (by omega) (le_max_left _ _)
  unfold sixel_parser_finalize
  dsimp only
  rw [hmx, hmy]
  refine ⟨rfl, rfl, ?_, ?_⟩
  · rw [finalizeEmit_length, finalizeDefault_width, finalizeDefault_height]
    ring
  · rw [finalizeDefault_width, finalizeDefault_height]
    by_cases hc : (st.image.width : ℤ) > max (st.max_x + 1) st.attributed_ph ∨
        (st.image.height : ℤ) > max (st.max_y + 1) st.attributed_pv
    · rw [if_pos hc, if_pos hc, image_buffer_resize_width, image_buffer_resize_height,
        Int.toNat_of_nonneg (le_trans zero_le_one h1x),
        Int.toNat_of_nonneg (le_trans zero_le_one h1y)]
    · rw [if_neg hc, if_neg hc]

theorem sixel_claim_C3_counterexample :
    (sixel_parser_finalize stC3cex).2.2.length
      ≠ 4 * ((sixel_parser_finalize stC3cex).2.1.max_x.toNat
          * (sixel_parser_finalize stC3cex).2.1.max_y.toNat) := by
  decide

theorem sixel_claim_C3_witness :
    0 ≤ stC3wit.max_x ∧ 0 ≤ stC3wit.max_y ∧
    ((sixel_parser_finalize stC3wit).2.1.max_x
        = max (stC3wit.max_x + 1) stC3wit.attributed_ph ∧
      (sixel_parser_finalize stC3wit).2.1.max_y
        = max (stC3wit.max_y + 1) stC3wit.attributed_pv ∧
      (sixel_parser_finalize stC3wit).2.2.length
        = 4 * ((sixel_parser_finalize stC3wit).2.1.image.width
            * (sixel_parser_finalize stC3wit).2.1.image.height) ∧
      (((sixel_parser_finalize stC3wit).2.1.image.width : ℤ),
       ((sixel_parser_finalize stC3wit).2.1.image.height : ℤ))
        = (if (stC3wit.image.width : ℤ) > max (stC3wit.max_x + 1) stC3wit.attributed_ph ∨
              (stC3wit.image.height : ℤ) > max (stC3wit.max_y + 1) stC3wit.attributed_pv then
            (max (stC3wit.max_x + 1) stC3wit.attributed_ph,
             max (stC3wit.max_y + 1) stC3wit.attributed_pv)
          else ((stC3wit.image.width : ℤ), (stC3wit.image.height : ℤ)))) :=
  ⟨by decide, by decide, sixel_claim_C3 stC3wit (by decide) (by decide)⟩

theorem foldl_preserve {α β : Type} (P : α → Prop) (f : α → β → α) (l : List β)
    (hf : ∀ x b, P x → P (f x b)) : ∀ x, P x → P (l.foldl f x) := by
  induction l with
  | nil => intro x hx; exact hx
  | cons b bs ih => intro x hx; exact ih (f x b) (hf x b hx)

theorem getD_lt {l : List ℕ} {m d : ℕ} (h : ∀ c ∈ l, c < m) (hd : d < m) (n : ℕ) :
    l.getD n d < m := by
  by_cases hn : n < l.length
  · rw [List.getD_eq_getElem l d hn]
    exact h _ (List.getElem_mem hn)
  · rw [List.getD_eq_default l d (Nat.le_of_not_lt hn)]
    exact hd

theorem mem_setCell {data : List ℕ} {pos : ℤ} {v c : ℕ} (hc : c ∈ setCell data pos v) :
    c ∈ data ∨ c = v := by
  unfold setCell at hc
  split at hc
  · exact List.mem_or_eq_of_mem_set hc
  · exact Or.inl hc

theorem paintSingle_cells {m : ℕ} (bits : ℕ) (ci : ℤ) (w : ℕ) (px py : ℤ)
    (hci : ci.toNat < m) (acc : List ℕ × ℤ × ℤ) (i : ℕ)
    (h : ∀ c ∈ acc.1, c < m) :
    ∀ c ∈ (paintSingle bits ci w px py acc i).1, c < m := by
  unfold paintSingle
  split
  · intro c hc
    rcases mem_setCell hc with h1 | h1
    · exact h c h1
    · rw [h1]; exact hci
  · exact h

theorem paintRect_cells {m : ℕ} (color w : ℕ) (px rc y : ℤ) (hv : color < m)
    (data : List ℕ) (h : ∀ c ∈ data, c < m) :
    ∀ c ∈ paintRect color w px rc data y, c < m := by
  unfold paintRect
  refine foldl_preserve (fun d => ∀ c ∈ d, c < m) _ _ ?_ data h
  intro d k hd c hc
  rcases mem_setCell hc with h1 | h1
  · exact hd c h1
  · rw [h1]; exact hv

theorem paintRows_cells {m : ℕ} (color w : ℕ) (px rc py : ℤ) (i n : ℕ) (hv : color < m)
    (data : List ℕ) (h : ∀ c ∈ data, c < m) :
    ∀ c ∈ paintRows color w px rc py i n data, c < m := by
  unfold paintRows
  refine foldl_preserve (fun d => ∀ c ∈ d, c < m) _ _ ?_ data h
  intro d k hd
  exact paintRect_cells color w px rc (py + i + k) hv d hd

theorem paintMulti_cells {m : ℕ} (bits : ℕ) (ci : ℤ) (w : ℕ) (px py rc : ℤ)
    (hci : ci.toNat < m) :
    ∀ (fuel i : ℕ) (acc : List ℕ × ℤ × ℤ), 6 - i ≤ fuel →
      (∀ c ∈ acc.1, c < m) →
      ∀ c ∈ (paintMulti bits ci w px py rc i acc).1, c < m := by
  intro fuel
  induction fuel with
  | zero =>
      intro i acc hf h
      rw [paintMulti]
      split
      · rename_i h6
        exact absurd h6 (by omega)
      · exact h
  | succ f ih =>
      intro i acc hf h
      rw [paintMulti]
      split
      · rename_i h6
        split
        · dsimp only
          refine ih (i + (1 + runExtend bits i 0)) _ (by omega) ?_
          exact paintRows_cells ci.toNat w px rc py i (1 + runExtend bits i 0) hci acc.1 h
        · exact ih (i + 1) acc (by omega) h
      · exact h

theorem sixelPaintCore_width (st : sixel_state_t) (bits : ℕ) :
    (sixelPaintCore st bits).image.width = st.image.width := by
  unfold sixelPaintCore
  dsimp only
  repeat' split
  all_goals rfl

theorem sixelPaintCore_height (st : sixel_state_t) (bits : ℕ) :
    (sixelPaintCore st bits).image.height = st.image.height := by
  unfold sixelPaintCore
  dsimp only
  repeat' split
  all_goals rfl

theorem sixelPaintCore_color (st : sixel_state_t) (bits : ℕ) :
    (sixelPaintCore st bits).color_index = st.color_index := by
  unfold sixelPaintCore
  dsimp only
  repeat' split
  all_goals rfl

theorem sixelPaintCore_cells (st : sixel_state_t) (bits : ℕ)
    (hci : st.color_index < (DECSIXEL_PALETTE_MAX : ℤ))
    (h : ∀ c ∈ st.image.data.getD [], c < DECSIXEL_PALETTE_MAX) :
    ∀ c ∈ (sixelPaintCore st bits).image.data.getD [], c < DECSIXEL_PALETTE_MAX := by
  have hcn : st.color_index.toNat < DECSIXEL_PALETTE_MAX := by
    unfold DECSIXEL_PALETTE_MAX at hci ⊢
    omega
  unfold sixelPaintCore
  dsimp only
  repeat' split
  all_goals
    first
      | exact h
      | exact foldl_preserve
          (fun acc : List ℕ × ℤ × ℤ => ∀ c ∈ acc.1, c < DECSIXEL_PALETTE_MAX)
          _ _ (fun acc i hacc => paintSingle_cells _ _ _ _ _ hcn acc i hacc) _ h
      | exact paintMulti_cells _ _ _ _ _ _ hcn 6 0 _ (by omega) h

theorem growXY_ge_aux (n : ℕ) : ∀ (sx sy : ℕ) (tx ty : ℤ),
    ((tx - sx).toNat + (ty - sy).toNat) ≤ n →
    sx ≤ (growXY sx sy tx ty).1 ∧ sy ≤ (growXY sx sy tx ty).2 := by
  induction n with
  | zero =>
      intro sx sy tx ty hn
      rw [growXY]
      split
      · rename_i hcond
        obtain ⟨ha, hb, hc⟩ := hcond
        exfalso
        omega
      · exact ⟨le_refl _, le_refl _⟩
  | succ f ih =>
      intro sx sy tx ty hn
      rw [growXY]
      split
      · rename_i hcond
        obtain ⟨ha, hb, hc⟩ := hcond
        have hr := ih (2 * sx) (2 * sy) tx ty (by omega)
        exact ⟨le_trans (by omega) hr.1, le_trans (by omega) hr.2⟩
      · exact ⟨le_refl _, le_refl _⟩

theorem growXY_ge (sx sy : ℕ) (tx ty : ℤ) :
    sx ≤ (growXY sx sy tx ty).1 ∧ sy ≤ (growXY sx sy tx ty).2 :=
  growXY_ge_aux ((tx - sx).toNat + (ty - sy).toNat) sx sy tx ty (le_refl _)

theorem image_buffer_resize_cells {m : ℕ} (im : sixel_image_t) (w h : ℕ)
    (hc : ∀ c ∈ im.data.getD [], c < m) (hm : 0 < m) :
    ∀ c ∈ (image_buffer_resize im w h).2.data.getD [], c < m := by
  intro c hcm
  unfold image_buffer_resize at hcm
  dsimp only at hcm
  rw [Option.getD_some] at hcm
  obtain ⟨k, hk, rfl⟩ := List.mem_map.mp hcm
  split <;> split
  all_goals first | exact getD_lt hc hm _ | exact hm

theorem sixelPaintCore_inv (st : sixel_state_t) (bits : ℕ) (h : sixelInv st) :
    sixelInv (sixelPaintCore st bits) := by
  obtain ⟨⟨h1, h2, h3, h4, h5⟩, h6⟩ := h
  unfold sixelInv sixelBounds
  refine ⟨⟨?_, ?_, ?_, ?_, ?_⟩, ?_⟩
  · rw [sixelPaintCore_width]; exact h1
  · rw [sixelPaintCore_width]; exact h2
  · rw [sixelPaintCore_height]; exact h3
  · rw [sixelPaintCore_height]; exact h4
  · exact sixelPaintCore_cells st bits h6 h5
  · rw [sixelPaintCore_color]; exact h6

theorem sixelPaint_inv (st : sixel_state_t) (bits : ℕ) (s : ℤ) (h : sixelInv st) :
    sixelInv (sixelPaint st bits s).1 := by
  unfold sixelPaint
  dsimp only
  split
  · refine sixelPaintCore_inv _ bits ?_
    obtain ⟨⟨h1, h2, h3, h4, h5⟩, h6⟩ := h
    have hg := growXY_ge (st.image.width * 2) (st.image.height * 2)
      (st.pos_x + st.repeat_count) (st.pos_y + 6)
    unfold sixelInv sixelBounds
    dsimp only
    rw [image_buffer_resize_width, image_buffer_resize_height]
    refine ⟨⟨?_, ?_, ?_, ?_, ?_⟩, h6⟩
    · unfold DECSIXEL_WIDTH_MAX at *
      split
      · omega
      · omega
    · unfold DECSIXEL_WIDTH_MAX at *
      split
      · omega
      · omega
    · unfold DECSIXEL_HEIGHT_MAX at *
      split
      · omega
      · omega
    · unfold DECSIXEL_HEIGHT_MAX at *
      split
      · omega
      · omega
    · exact image_buffer_resize_cells st.image _ _ h5 (by decide)
  · exact sixelPaintCore_inv st bits h

theorem stepGRAattr_inv (st : sixel_state_t) (s : ℤ) (h : sixelInv st) :
    sixelInv (stepGRAattr st s).1 := by
  obtain ⟨⟨h1, h2, h3, h4, h5⟩, h6⟩ := h
  unfold stepGRAattr
  by_cases hc : (st.image.width : ℤ) < graPH st ∨ (st.image.height : ℤ) < graPV st
  · rw [if_pos hc]
    unfold sixelInv sixelBounds
    dsimp only
    rw [image_buffer_resize_width, image_buffer_resize_height]
    refine ⟨⟨?_, ?_, ?_, ?_, ?_⟩, h6⟩
    · unfold DECSIXEL_WIDTH_MAX
      repeat' split
      all_goals omega
    · unfold DECSIXEL_WIDTH_MAX
      repeat' split
      all_goals omega
    · unfold DECSIXEL_HEIGHT_MAX
      repeat' split
      all_goals omega
    · unfold DECSIXEL_HEIGHT_MAX
      repeat' split
      all_goals omega
    · exact image_buffer_resize_cells st.image _ _ h5 (by decide)
  · rw [if_neg hc]
    exact ⟨⟨h1, h2, h3, h4, h5⟩, h6⟩

theorem gciCI_lt (st : sixel_state_t)
    (h6 : st.color_index < (DECSIXEL_PALETTE_MAX : ℤ)) :
    gciCI st < (DECSIXEL_PALETTE_MAX : ℤ) := by
  unfold gciCI
  dsimp only
  unfold DECSIXEL_PALETTE_MAX at h6 ⊢
  repeat' split
  all_goals first | exact h6 | omega

theorem stepGCIcolor_inv (st : sixel_state_t) (s : ℤ) (h : sixelInv st) :
    sixelInv (stepGCIcolor st s).1 := by
  obtain ⟨⟨h1, h2, h3, h4, h5⟩, h6⟩ := h
  unfold stepGCIcolor
  unfold sixelInv sixelBounds
  dsimp only
  refine ⟨⟨?_, ?_, ?_, ?_, ?_⟩, ?_⟩
  · repeat' split
    all_goals exact h1
  · repeat' split
    all_goals exact h2
  · repeat' split
    all_goals exact h3
  · repeat' split
    all_goals exact h4
  · repeat' split
    all_goals exact h5
  · exact gciCI_lt st h6

theorem sixelInv_ite {c : Prop} [inst : Decidable c] {a b : sixel_state_t × ℤ × Bool × Bool}
    (ha : sixelInv a.1) (hb : sixelInv b.1) : sixelInv (if c then a else b).1 := by
  split
  · exact ha
  · exact hb

theorem sixelStep_inv (st : sixel_state_t) (b : ℕ) (s : ℤ) (h : sixelInv st) :
    sixelInv (sixelStep st b s).1 := by
  unfold sixelStep
  cases st.state
  case PS_ESC => exact sixelInv_ite h (sixelInv_ite h h)
  case PS_DCS =>
    exact sixelInv_ite h (sixelInv_ite h (sixelInv_ite h (sixelInv_ite h h)))
  case PS_DECSIXEL =>
    refine sixelInv_ite h (sixelInv_ite h (sixelInv_ite h (sixelInv_ite h
      (sixelInv_ite h (sixelInv_ite h (sixelInv_ite ?_ h))))))
    exact sixelPaint_inv st (b - 0x3f) s h
  case PS_DECGRA =>
    exact sixelInv_ite h (sixelInv_ite h (sixelInv_ite h (stepGRAattr_inv st s h)))
  case PS_DECGRI =>
    exact sixelInv_ite h (sixelInv_ite h h)
  case PS_DECGCI =>
    exact sixelInv_ite h (sixelInv_ite h (sixelInv_ite h (stepGCIcolor_inv st s h)))

theorem sixelProcessByte_inv (st : sixel_state_t) (b : ℕ) (s : ℤ) (h : sixelInv st) :
    sixelInv (sixelProcessByte st b s).1 := by
  unfold sixelProcessByte
  dsimp only
  split
  · exact sixelStep_inv st b s h
  · exact sixelStep_inv _ b _ (sixelStep_inv st b s h)

theorem sixelParseLoop_inv (bs : List ℕ) : ∀ (st : sixel_state_t) (s : ℤ),
    sixelInv st → sixelInv (sixelParseLoop st bs s).2 := by
  induction bs with
  | nil => intro st s h; exact h
  | cons b rest ih =>
      intro st s h
      rw [sixelParseLoop]
      split
      · exact sixelProcessByte_inv st b s h
      · exact ih _ _ (sixelProcessByte_inv st b s h)

theorem sixel_parser_parse_inv (st : sixel_state_t) (bs : List ℕ) (h : sixelInv st) :
    sixelInv (sixel_parser_parse st bs).2 := by
  unfold sixel_parser_parse
  split
  · exact h
  · exact sixelParseLoop_inv bs st (-1) h

theorem sixel_parser_init_inv (fg bg : ℤ) (priv : Bool) :
    sixelInv (sixel_parser_init fg bg priv).2 := by
  unfold sixelInv sixelBounds
  refine ⟨⟨?_, ?_, ?_, ?_, ?_⟩, ?_⟩
  · exact le_refl 1
  · exact (by decide : (1 : ℕ) ≤ DECSIXEL_WIDTH_MAX)
  · exact le_refl 1
  · exact (by decide : (1 : ℕ) ≤ DECSIXEL_HEIGHT_MAX)
  · intro c hc
    rw [show (sixel_parser_init fg bg priv).2.image.data.getD [] = [0] from rfl] at hc
    simp at hc
    subst hc
    decide
  · exact (by decide : (16 : ℤ) < (DECSIXEL_PALETTE_MAX : ℤ))

/-- Claim C4: after `sixel_parser_init` and after every sequence of
`sixel_parser_parse` calls on arbitrary byte sequences, the image
satisfies `1 ≤ width ≤ DECSIXEL_WIDTH_MAX`,
`1 ≤ height ≤ DECSIXEL_HEIGHT_MAX`, and every cell of `data` is a
palette index below `DECSIXEL_PALETTE_MAX`. -/
theorem sixel_claim_C4 (fg bg : ℤ) (priv : Bool) (calls : List (List ℕ)) :
    sixelBounds (calls.foldl (fun st bs => (sixel_parser_parse st bs).2)
      (sixel_parser_init fg bg priv).2) := by
  have main : ∀ (L : List (List ℕ)) (st : sixel_state_t), sixelInv st →
      sixelInv (L.foldl (fun st bs => (sixel_parser_parse st bs).2) st) := by
    intro L
    induction L with
    | nil => intro st h; exact h
    | cons bs rest ih => intro st h; exact ih _ (sixel_parser_parse_inv st bs h)
  exact (main calls _ (sixel_parser_init_inv fg bg priv)).1

theorem ring_claim_C2_witness :
    2 ≤ 3 ∧
    ((ringAppendAll (_vte_ring_new_with_delta 3 0) (([5, 6, 7, 8] : List ℕ).map some)).length
        = Nat.min ([5, 6, 7, 8] : List ℕ).length 3 ∧
      (ringAppendAll (_vte_ring_new_with_delta 3 0) (([5, 6, 7, 8] : List ℕ).map some)).delta
        = ([5, 6, 7, 8] : List ℕ).length - Nat.min ([5, 6, 7, 8] : List ℕ).length 3 ∧
      ∀ i, i < Nat.min ([5, 6, 7, 8] : List ℕ).length 3 →
        _vte_ring_index
            (ringAppendAll (_vte_ring_new_with_delta 3 0) (([5, 6, 7, 8] : List ℕ).map some))
            (([5, 6, 7, 8] : List ℕ).length - Nat.min ([5, 6, 7, 8] : List ℕ).length 3 + i)
          = some (([5, 6, 7, 8] : List ℕ).getD
              (([5, 6, 7, 8] : List ℕ).length - Nat.min ([5, 6, 7, 8] : List ℕ).length 3 + i) 0)) :=
  ⟨by decide, ring_claim_C2 3 (by decide) [5, 6, 7, 8]⟩
